import Mathlib

/-!
Verification of the playlist-synthesis backend.

The development shallowly embeds the code of `src/backend/utils/RateLimiter.js`
(the `RateLimiter` task throttle and the priority-aware `ApiCache`) and the
pure parts of `src/backend/server.js` (`inferVibe`, `detectCulturalEra`, the
stage-3 contextual score adjustment, URI dedup and
`assemblePlaylistBySections` / final playlist assembly of the `/analyze`
route).  JavaScript numbers are modelled as `Int` where the code only ever
holds integers and as `Rat` where fractional arithmetic occurs;
`Math.round x` is modelled as `Int.floor (x + 1/2)`, which is the JS
semantics of rounding half toward positive infinity.  JS `Map` objects are
modelled as insertion-ordered association lists, matching Map iteration
order.  Array `sort` is modelled as a stable insertion sort, matching the
stable sort required of JS engines.
-/

/-! ### Shared helpers -/

/-- JS `Math.round` on exact rationals: round half toward positive infinity. -/
def jsRound (q : ℚ) : ℤ := ⌊q + 1/2⌋

/-- Stable insertion of `x` into `l`: `x` is placed before the first element
`y` with `le x y`.  With `le a b` meaning "a sorts no later than b" this
yields the stable sort below. -/
def insertStable {α : Type} (le : α → α → Bool) : α → List α → List α
  | x, [] => [x]
  | x, y :: ys => if le x y then x :: y :: ys else y :: insertStable le x ys

/-- Stable sort (model of JS `Array.prototype.sort`, which must be stable). -/
def jsSortBy {α : Type} (le : α → α → Bool) : List α → List α
  | [] => []
  | x :: xs => insertStable le x (jsSortBy le xs)

theorem mem_insertStable {α : Type} (le : α → α → Bool) (x a : α) (l : List α) :
    a ∈ insertStable le x l ↔ a = x ∨ a ∈ l := by
  induction l with
  | nil => simp [insertStable]
  | cons y ys ih =>
    simp only [insertStable]
    split
    · simp [List.mem_cons]
    · simp only [List.mem_cons, ih]
      tauto

theorem mem_jsSortBy {α : Type} (le : α → α → Bool) (a : α) (l : List α) :
    a ∈ jsSortBy le l ↔ a ∈ l := by
  induction l with
  | nil => simp [jsSortBy]
  | cons x xs ih => simp [jsSortBy, mem_insertStable, ih]

theorem length_insertStable {α : Type} (le : α → α → Bool) (x : α) (l : List α) :
    (insertStable le x l).length = l.length + 1 := by
  induction l with
  | nil => simp [insertStable]
  | cons y ys ih =>
    simp only [insertStable]
    split
    · simp
    · simp [ih]

theorem length_jsSortBy {α : Type} (le : α → α → Bool) (l : List α) :
    (jsSortBy le l).length = l.length := by
  induction l with
  | nil => rfl
  | cons x xs ih => simp [jsSortBy, length_insertStable, ih]

theorem perm_insertStable {α : Type} (le : α → α → Bool) (x : α) (l : List α) :
    (insertStable le x l).Perm (x :: l) := by
  induction l with
  | nil => simp [insertStable]
  | cons y ys ih =>
    simp only [insertStable]
    split
    · exact List.Perm.refl _
    · exact (List.Perm.cons y ih).trans (List.Perm.swap x y ys)

theorem perm_jsSortBy {α : Type} (le : α → α → Bool) (l : List α) :
    (jsSortBy le l).Perm l := by
  induction l with
  | nil => exact List.Perm.refl _
  | cons x xs ih => exact (perm_insertStable le x (jsSortBy le xs)).trans (List.Perm.cons x ih)

/-! ### TaskThrottle: `RateLimiter` from `src/backend/utils/RateLimiter.js`

The limiter state mirrors the instance fields `active`, `queue` and
`_stats`.  Queued items (`{fn, resolve, reject}` records) are identified by
natural-number task ids; invoking a dequeued task and settling its promise
happen asynchronously, so in the model a running task is counted in `active`
and its eventual settlement is a separate `complete` transition. -/

namespace RateLimiter

structure State where
  active : ℕ
  queue : List ℕ
  executed : ℕ
  queuedStat : ℕ
  failures : ℕ
deriving DecidableEq, Repr

/-- The constructor `new RateLimiter(concurrency, maxQueue)`. -/
def initState : State := { active := 0, queue := [], executed := 0, queuedStat := 0, failures := 0 }

/-- `_tryNext()`: if a concurrency slot is free and the queue is non-empty,
shift the first waiting item and start it (`active++`). -/
def tryNext (concurrency : ℕ) (s : State) : State :=
  if s.active < concurrency then
    match s.queue with
    | [] => s
    | _ :: rest =>
      { s with queue := rest, queuedStat := rest.length, active := s.active + 1 }
  else s

inductive ExecOutcome where
  | accepted
  | rejectedQueueFull
deriving DecidableEq, Repr

/-- `execute(fn)`: reject immediately when `queue.length >= maxQueue`
(counting a failure), otherwise push the item and call `_tryNext`. -/
def execute (concurrency maxQueue : ℕ) (s : State) (task : ℕ) : ExecOutcome × State :=
  if s.queue.length ≥ maxQueue then
    (ExecOutcome.rejectedQueueFull, { s with failures := s.failures + 1 })
  else
    let s1 := { s with queue := s.queue ++ [task], queuedStat := s.queue.length + 1 }
    (ExecOutcome.accepted, tryNext concurrency s1)

/-- The `.then` continuation of a running task: `active--`, count it
executed, settle its promise, `_tryNext()`. -/
def completeOk (concurrency : ℕ) (s : State) : State :=
  tryNext concurrency { s with active := s.active - 1, executed := s.executed + 1 }

/-- The `.catch` continuation of a running task: `active--`, count a
failure, reject its promise, `_tryNext()`. -/
def completeErr (concurrency : ℕ) (s : State) : State :=
  tryNext concurrency { s with active := s.active - 1, failures := s.failures + 1 }

/-- States reachable by the event-loop interleavings of `execute` calls and
task completions; a completion event requires a running task. -/
inductive Reachable (concurrency maxQueue : ℕ) : State → Prop where
  | init : Reachable concurrency maxQueue initState
  | stepExecute {s : State} (task : ℕ) :
      Reachable concurrency maxQueue s →
      Reachable concurrency maxQueue (execute concurrency maxQueue s task).2
  | stepCompleteOk {s : State} :
      Reachable concurrency maxQueue s → 0 < s.active →
      Reachable concurrency maxQueue (completeOk concurrency s)
  | stepCompleteErr {s : State} :
      Reachable concurrency maxQueue s → 0 < s.active →
      Reachable concurrency maxQueue (completeErr concurrency s)

theorem tryNext_active_le (concurrency : ℕ) (s : State) (h : s.active ≤ concurrency) :
    (tryNext concurrency s).active ≤ concurrency := by
  unfold tryNext
  split
  · rename_i hlt
    match hq : s.queue with
    | [] => simpa [hq] using h
    | _ :: rest => simp only [hq]; exact hlt
  · exact h

theorem tryNext_queue_le (concurrency : ℕ) (s : State) (n : ℕ) (h : s.queue.length ≤ n) :
    (tryNext concurrency s).queue.length ≤ n := by
  unfold tryNext
  split
  · match hq : s.queue with
    | [] => exact h
    | _ :: rest =>
      simp only [hq, List.length_cons] at h
      simpa [hq] using Nat.le_of_succ_le h
  · exact h

theorem reachable_bounds (concurrency maxQueue : ℕ) (s : State)
    (h : Reachable concurrency maxQueue s) :
    s.active ≤ concurrency ∧ s.queue.length ≤ maxQueue := by
  induction h with
  | init => exact ⟨Nat.zero_le _, Nat.zero_le _⟩
  | stepExecute task _ ih =>
    rename_i s' _
    obtain ⟨ha, hq⟩ := ih
    unfold execute
    split
    · exact ⟨ha, hq⟩
    · rename_i hfull
      push_neg at hfull
      constructor
      · exact tryNext_active_le _ _ ha
      · exact tryNext_queue_le _ _ _ (by simpa using hfull)
  | stepCompleteOk _ _ ih =>
    obtain ⟨ha, hq⟩ := ih
    exact ⟨tryNext_active_le _ _ (Nat.le_trans (Nat.sub_le _ _) ha),
           tryNext_queue_le _ _ _ hq⟩
  | stepCompleteErr _ _ ih =>
    obtain ⟨ha, hq⟩ := ih
    exact ⟨tryNext_active_le _ _ (Nat.le_trans (Nat.sub_le _ _) ha),
           tryNext_queue_le _ _ _ hq⟩

end RateLimiter

/-- C2: in every reachable state of a `RateLimiter` with concurrency `C` and
queue bound `Q`, at most `C` tasks run concurrently and at most `Q` tasks
wait in the queue; and whenever `Q` tasks are already waiting, `execute`
rejects immediately with the queue-full outcome, leaving the waiting queue
and the running count unchanged (the task is not enqueued, not started, and
not silently dropped: the failure is counted). -/
theorem taskThrottle_bounds_and_queueFull_reject (C Q : ℕ) (s : RateLimiter.State)
    (h : RateLimiter.Reachable C Q s) :
    (s.active ≤ C ∧ s.queue.length ≤ Q) ∧
    (s.queue.length = Q → ∀ task : ℕ,
      (RateLimiter.execute C Q s task).1 = RateLimiter.ExecOutcome.rejectedQueueFull ∧
      (RateLimiter.execute C Q s task).2.queue = s.queue ∧
      (RateLimiter.execute C Q s task).2.active = s.active ∧
      (RateLimiter.execute C Q s task).2.failures = s.failures + 1) := by
  refine ⟨RateLimiter.reachable_bounds C Q s h, ?_⟩
  intro hfull task
  unfold RateLimiter.execute
  rw [if_pos (by omega)]
  exact ⟨rfl, rfl, rfl, rfl⟩

/-- Witness for C2: with concurrency 0 and queue bound 2, the state after two
`execute` calls is reachable, its queue is full, and the theorem applies to
it with every hypothesis discharged on this concrete state. -/
theorem taskThrottle_bounds_and_queueFull_reject_witness :
    ((RateLimiter.execute 0 2 (RateLimiter.execute 0 2 RateLimiter.initState 1).2 2).2.active ≤ 0 ∧
     (RateLimiter.execute 0 2 (RateLimiter.execute 0 2 RateLimiter.initState 1).2 2).2.queue.length ≤ 2) ∧
    ((RateLimiter.execute 0 2 (RateLimiter.execute 0 2 RateLimiter.initState 1).2 2).2.queue.length = 2 →
      ∀ task : ℕ,
      (RateLimiter.execute 0 2 (RateLimiter.execute 0 2 (RateLimiter.execute 0 2 RateLimiter.initState 1).2 2).2 task).1 =
        RateLimiter.ExecOutcome.rejectedQueueFull ∧
      (RateLimiter.execute 0 2 (RateLimiter.execute 0 2 (RateLimiter.execute 0 2 RateLimiter.initState 1).2 2).2 task).2.queue =
        (RateLimiter.execute 0 2 (RateLimiter.execute 0 2 RateLimiter.initState 1).2 2).2.queue ∧
      (RateLimiter.execute 0 2 (RateLimiter.execute 0 2 (RateLimiter.execute 0 2 RateLimiter.initState 1).2 2).2 task).2.active =
        (RateLimiter.execute 0 2 (RateLimiter.execute 0 2 RateLimiter.initState 1).2 2).2.active ∧
      (RateLimiter.execute 0 2 (RateLimiter.execute 0 2 (RateLimiter.execute 0 2 RateLimiter.initState 1).2 2).2 task).2.failures =
        (RateLimiter.execute 0 2 (RateLimiter.execute 0 2 RateLimiter.initState 1).2 2).2.failures + 1) :=
  taskThrottle_bounds_and_queueFull_reject 0 2 _
    (RateLimiter.Reachable.stepExecute 2 (RateLimiter.Reachable.stepExecute 1 RateLimiter.Reachable.init))

/-! ### BoundedCache: priority-aware `ApiCache` from `src/backend/utils/RateLimiter.js`

`Date.now()` is passed explicitly as `now`.  A JS `Map` is an
insertion-ordered association list.  The second (plain-LRU) `ApiCache`
variant in the same file shares the `set` type check verbatim. -/

namespace ApiCache

/-- A JS value in key position: `set` dispatches on `typeof key !== 'string'`. -/
inductive JSKey where
  | str (s : String)
  | num (n : ℤ)
  | other
deriving DecidableEq, Repr

def JSKey.isString : JSKey → Bool
  | .str _ => true
  | _ => false

structure Entry (α : Type) where
  value : α
  t : ℤ
  priority : ℤ
deriving DecidableEq, Repr

/-- `Map.prototype.get` on an insertion-ordered association list. -/
def mapGet {β : Type} : List (String × β) → String → Option β
  | [], _ => none
  | kv :: rest, k => if kv.1 == k then some kv.2 else mapGet rest k

/-- `Map.prototype.set`: update in place when present, else append. -/
def mapSet {β : Type} : List (String × β) → String → β → List (String × β)
  | [], k, v => [(k, v)]
  | kv :: rest, k, v => if kv.1 == k then (k, v) :: rest else kv :: mapSet rest k v

/-- `Map.prototype.delete`. -/
def mapDelete {β : Type} (l : List (String × β)) (k : String) : List (String × β) :=
  l.filter (fun kv => kv.1 != k)

structure Cache (α : Type) where
  cache : List (String × Entry α)
  order : List String
  priorities : List (String × ℤ)
  ttl : ℤ
  maxSize : ℕ
  hits : ℕ
  misses : ℕ
deriving DecidableEq, Repr

/-- `new ApiCache(ttl, maxSize)`. -/
def mkCache {α : Type} (ttl : ℤ) (maxSize : ℕ) : Cache α :=
  { cache := [], order := [], priorities := [], ttl := ttl, maxSize := maxSize,
    hits := 0, misses := 0 }

/-- `del(key)`. -/
def del {α : Type} (c : Cache α) (key : String) : Cache α :=
  { c with cache := mapDelete c.cache key,
           priorities := mapDelete c.priorities key,
           order := c.order.filter (fun k => k != key) }

/-- JS `String.prototype.includes`, on character lists. -/
def leadsWith : List Char → List Char → Bool
  | [], _ => true
  | _ :: _, [] => false
  | a :: as, b :: bs => a == b && leadsWith as bs

def includesSub (s pat : String) : Bool :=
  List.any (List.range (s.data.length + 1)) (fun i => leadsWith pat.data (s.data.drop i))

/-- `detectPriority(key)`. -/
def detectPriority (key : String) : ℤ :=
  if includesSub key "spotify_features" || includesSub key "audio_features" then 1
  else if includesSub key "lastfm_tags" || includesSub key "lastfm_similar" then 2
  else if includesSub key "artist_info" || includesSub key "album_info" then 3
  else if includesSub key "track_info" then 2
  else 3

/-- `this.priorities.get(key) || 3`: a missing or falsy (zero) priority
reads as 3. -/
def effPriority (priorities : List (String × ℤ)) (key : String) : ℤ :=
  match mapGet priorities key with
  | none => 3
  | some p => if p = 0 then 3 else p

/-- Accumulator of the `evictLowPriority` scan: `lowestPriority`,
`oldestKey`, `oldestTime`. -/
structure ScanState where
  lowestPriority : ℤ
  oldestKey : Option String
  oldestTime : ℤ
deriving DecidableEq, Repr

/-- One iteration of the `for (const [key, entry] of this.cache.entries())`
loop in `evictLowPriority`. -/
def scanStep {α : Type} (priorities : List (String × ℤ)) (st : ScanState)
    (kv : String × Entry α) : ScanState :=
  if effPriority priorities kv.1 > st.lowestPriority then
    { lowestPriority := effPriority priorities kv.1, oldestKey := some kv.1,
      oldestTime := kv.2.t }
  else if effPriority priorities kv.1 = st.lowestPriority ∧ kv.2.t < st.oldestTime then
    { st with oldestKey := some kv.1, oldestTime := kv.2.t }
  else st

/-- The key selected by the `evictLowPriority` scan (if any); the scan
starts from `lowestPriority = 3`, `oldestKey = null`, `oldestTime = Date.now()`. -/
def evictChoice {α : Type} (entries : List (String × Entry α))
    (priorities : List (String × ℤ)) (now : ℤ) : Option String :=
  (entries.foldl (scanStep priorities) ⟨3, none, now⟩).oldestKey

/-- `evictLowPriority()`: delete the scanned key, else fall back to plain
LRU (`order.shift()`).  JS `shift` on an empty array yields `undefined` and
the subsequent `delete undefined` calls are no-ops. -/
def evictLowPriority {α : Type} (c : Cache α) (now : ℤ) : Cache α :=
  match evictChoice c.cache c.priorities now with
  | some oldestKey => del c oldestKey
  | none =>
    match c.order with
    | [] => c
    | oldKey :: rest =>
      { c with order := rest,
               cache := mapDelete c.cache oldKey,
               priorities := mapDelete c.priorities oldKey }

/-- `set` on a string key (after the type check): `del`, auto-detect the
priority when the argument is `null`, store, append to the access order,
and evict once when the order length exceeds `maxSize`. -/
def setStr {α : Type} (c : Cache α) (key : String) (value : α)
    (priority : Option ℤ) (now : ℤ) : Cache α :=
  let c1 := del c key
  let p := match priority with
    | none => detectPriority key
    | some q => q
  let c2 := { c1 with cache := mapSet c1.cache key ⟨value, now, p⟩,
                      priorities := mapSet c1.priorities key p,
                      order := c1.order ++ [key] }
  if c2.order.length > c2.maxSize then evictLowPriority c2 now else c2

/-- `set(key, value, priority = null)`: the first component is the thrown
error message, if any; a throw happens before any mutation, so the state is
returned unchanged in that case. -/
def set {α : Type} (c : Cache α) (key : JSKey) (value : α)
    (priority : Option ℤ) (now : ℤ) : Option String × Cache α :=
  match key with
  | .str s => (none, setStr c s value priority now)
  | _ => (some "Key must be string", c)

/-- `get(key)`: miss on absence; expired entries are deleted and count as a
miss; a hit moves the key to the end of the access order. -/
def get {α : Type} (c : Cache α) (key : String) (now : ℤ) : Option α × Cache α :=
  match mapGet c.cache key with
  | none => (none, { c with misses := c.misses + 1 })
  | some e =>
    if now - e.t > c.ttl then
      let d := del c key
      (none, { d with misses := d.misses + 1 })
    else
      (some e.value,
       { c with order := c.order.filter (fun k => k != key) ++ [key],
                hits := c.hits + 1 })

theorem mapGet_mapSet_self {β : Type} (l : List (String × β)) (k : String) (v : β) :
    mapGet (mapSet l k v) k = some v := by
  induction l with
  | nil => simp [mapSet, mapGet]
  | cons kv rest ih =>
    simp only [mapSet]
    split
    · simp [mapGet]
    · rename_i hne
      simp only [mapGet, hne, if_false]
      exact ih

theorem mapGet_mapSet_ne {β : Type} (l : List (String × β)) (k j : String) (v : β)
    (h : j ≠ k) : mapGet (mapSet l k v) j = mapGet l j := by
  induction l with
  | nil =>
    have h1 : (k == j) = false := beq_eq_false_iff_ne.mpr (Ne.symm h)
    simp [mapSet, mapGet, h1]
  | cons kv rest ih =>
    simp only [mapSet]
    split
    · rename_i heq
      have hkv : kv.1 = k := by simpa using heq
      have h1 : (k == j) = false := beq_eq_false_iff_ne.mpr (Ne.symm h)
      simp [mapGet, hkv, h1]
    · simp only [mapGet]
      split
      · rfl
      · exact ih

theorem mapGet_mapDelete_self {β : Type} (l : List (String × β)) (k : String) :
    mapGet (mapDelete l k) k = none := by
  induction l with
  | nil => rfl
  | cons kv rest ih =>
    simp only [mapDelete, List.filter] at ih ⊢
    split
    · rename_i hne
      simp only [bne_iff_ne, ne_eq] at hne
      simp only [mapGet, (beq_iff_eq ..).ne.mpr hne, if_false]
      exact ih
    · exact ih

theorem mapGet_mapDelete_ne {β : Type} (l : List (String × β)) (i j : String)
    (h : i ≠ j) : mapGet (mapDelete l i) j = mapGet l j := by
  induction l with
  | nil => rfl
  | cons kv rest ih =>
    simp only [mapDelete, List.filter] at ih ⊢
    split
    · simp only [mapGet]
      split
      · rfl
      · exact ih
    · rename_i hkeep
      have hkv : kv.1 = i := by
        by_contra hc
        simp [bne_iff_ne, hc] at hkeep
      have h1 : (kv.1 == j) = false := by
        subst hkv
        simpa using h
      simp only [mapGet, h1, if_false]
      exact ih

theorem mapGet_none_iff {β : Type} (l : List (String × β)) (k : String) :
    mapGet l k = none ↔ ∀ kv ∈ l, kv.1 ≠ k := by
  induction l with
  | nil => simp [mapGet]
  | cons kv rest ih =>
    simp only [mapGet]
    constructor
    · intro h kv2 hmem
      rcases List.mem_cons.mp hmem with hmem | hmem
      · intro hc
        subst hmem
        simp [hc] at h
      · rcases hkv : (kv.1 == k) with _ | _
        · simp only [hkv, if_false, Bool.false_eq_true] at h
          exact (ih.mp h) kv2 hmem
        · simp [hkv] at h
    · intro h
      have h1 : (kv.1 == k) = false := by
        simpa using h kv (by simp)
      simp only [h1, Bool.false_eq_true, if_false]
      exact ih.mpr (fun kv2 hmem => h kv2 (by simp [hmem]))

theorem mapSet_of_not_mem {β : Type} (l : List (String × β)) (k : String) (v : β)
    (h : mapGet l k = none) : mapSet l k v = l ++ [(k, v)] := by
  induction l with
  | nil => rfl
  | cons kv rest ih =>
    have hall := (mapGet_none_iff _ _).mp h
    have hkv : kv.1 ≠ k := hall kv (by simp)
    have h1 : (kv.1 == k) = false := beq_eq_false_iff_ne.mpr hkv
    simp only [mapSet, h1, Bool.false_eq_true, if_false, List.cons_append]
    congr 1
    apply ih
    rw [mapGet_none_iff]
    exact fun kv2 hmem => hall kv2 (by simp [hmem])

theorem mem_mapDelete_ne {β : Type} (l : List (String × β)) (k : String) :
    ∀ kv ∈ mapDelete l k, kv.1 ≠ k := by
  intro kv hmem
  have := List.of_mem_filter hmem
  simpa [bne_iff_ne] using this

theorem detectPriority_range (key : String) :
    1 ≤ detectPriority key ∧ detectPriority key ≤ 3 := by
  unfold detectPriority
  split
  · omega
  · split
    · omega
    · split
      · omega
      · split
        · omega
        · omega

/-- Fold invariant of the `evictLowPriority` scan showing that a key whose
effective priority is at most 3 and whose entries all carry the scan
instant as timestamp is never selected. -/
theorem scan_inv_not_self {α : Type} (PR : List (String × ℤ)) (now : ℤ) (k : String)
    (l : List (String × Entry α)) (st : ScanState)
    (hp : effPriority PR k ≤ 3)
    (ht : ∀ kv ∈ l, kv.1 = k → now ≤ kv.2.t)
    (hst : 3 ≤ st.lowestPriority ∧ (st.lowestPriority = 3 → st.oldestTime ≤ now) ∧
      st.oldestKey ≠ some k) :
    3 ≤ (l.foldl (scanStep PR) st).lowestPriority ∧
      ((l.foldl (scanStep PR) st).lowestPriority = 3 →
        (l.foldl (scanStep PR) st).oldestTime ≤ now) ∧
      (l.foldl (scanStep PR) st).oldestKey ≠ some k := by
  induction l generalizing st with
  | nil => exact hst
  | cons kv rest ih =>
    simp only [List.foldl_cons]
    apply ih
    · exact fun kv2 hmem hk => ht kv2 (by simp [hmem]) hk
    · obtain ⟨h3, hot, hok⟩ := hst
      unfold scanStep
      split
      · rename_i hgt
        dsimp only
        refine ⟨by omega, by omega, ?_⟩
        intro hc
        simp only [Option.some_inj] at hc
        subst hc
        omega
      · split
        · rename_i hngt heq
          obtain ⟨hpeq, htlt⟩ := heq
          dsimp only
          refine ⟨h3, ?_, ?_⟩
          · intro _
            have h1 : st.oldestTime ≤ now := hot (by omega)
            omega
          · intro hc
            simp only [Option.some_inj] at hc
            subst hc
            have hlp3 : st.lowestPriority = 3 := by omega
            have h1 : st.oldestTime ≤ now := hot hlp3
            have h2 : now ≤ kv.2.t := ht kv (by simp) rfl
            omega
        · exact ⟨h3, hot, hok⟩

theorem evictChoice_not_self {α : Type} (PR : List (String × ℤ)) (now : ℤ) (k : String)
    (l : List (String × Entry α))
    (hp : effPriority PR k ≤ 3)
    (ht : ∀ kv ∈ l, kv.1 = k → now ≤ kv.2.t) :
    evictChoice l PR now ≠ some k := by
  unfold evictChoice
  exact (scan_inv_not_self PR now k l ⟨3, none, now⟩ hp ht
    ⟨le_refl _, fun _ => le_refl _, by simp⟩).2.2

theorem effPriority_of_mapGet {priorities : List (String × ℤ)} {k : String} {p : ℤ}
    (h : mapGet priorities k = some p) :
    effPriority priorities k = if p = 0 then 3 else p := by
  unfold effPriority
  rw [h]

/-- If a key has effective priority at most 3, all its entries carry the
scan instant as timestamp, and the access-order head differs from it, then
one round of `evictLowPriority` does not remove it. -/
theorem mapGet_evictLowPriority_keep {α : Type} (c2 : Cache α) (k : String) (now : ℤ)
    (e : Entry α)
    (hcache : mapGet c2.cache k = some e)
    (heff : effPriority c2.priorities k ≤ 3)
    (htimes : ∀ kv ∈ c2.cache, kv.1 = k → now ≤ kv.2.t)
    (hhead : ∀ y rest, c2.order = y :: rest → y ≠ k) :
    mapGet (evictLowPriority c2 now).cache k = some e := by
  unfold evictLowPriority
  split
  · rename_i j hj
    have hjk : j ≠ k := fun hc =>
      evictChoice_not_self c2.priorities now k c2.cache heff htimes (hc ▸ hj)
    unfold del
    simp only
    rw [mapGet_mapDelete_ne _ _ _ hjk]
    exact hcache
  · split
    · exact hcache
    · rename_i hnone o rest horder
      simp only
      rw [mapGet_mapDelete_ne _ _ _ (hhead o rest horder)]
      exact hcache

/-- After `setStr` with automatic priority, the key is present with the
inserted value and timestamp, provided the cache holds at least one slot. -/
theorem setStr_mapGet_self {α : Type} (c : Cache α) (k : String) (v : α) (now : ℤ)
    (hmax : 1 ≤ c.maxSize) :
    mapGet (setStr c k v none now).cache k =
      some { value := v, t := now, priority := detectPriority k } := by
  unfold setStr del
  simp only
  set e : Entry α := { value := v, t := now, priority := detectPriority k } with he
  have hgetc2 : mapGet (mapSet (mapDelete c.cache k) k e) k = some e :=
    mapGet_mapSet_self _ _ _
  split
  · rename_i hover
    apply mapGet_evictLowPriority_keep
    · exact hgetc2
    · simp only
      rw [effPriority_of_mapGet (mapGet_mapSet_self _ _ _)]
      have := detectPriority_range k
      split
      · omega
      · omega
    · intro kv hmem hk
      simp only at hmem
      rw [mapSet_of_not_mem _ _ _ (mapGet_mapDelete_self _ _)] at hmem
      rcases List.mem_append.mp hmem with hmem | hmem
      · exact absurd hk (mem_mapDelete_ne _ _ kv hmem)
      · simp only [List.mem_singleton] at hmem
        subst hmem
        simp [he]
    · simp only
      intro y rest2 heq
      match hfil : List.filter (fun k2 => k2 != k) c.order with
      | [] =>
        exfalso
        rw [hfil] at hover
        simp only [List.nil_append, List.length_singleton] at hover
        omega
      | z :: zs =>
        rw [hfil] at heq
        simp only [List.cons_append, List.cons.injEq] at heq
        have hz : z ∈ List.filter (fun k2 => k2 != k) c.order := by
          rw [hfil]
          simp
        have hzk := List.of_mem_filter hz
        rw [← heq.1]
        simpa [bne_iff_ne] using hzk
  · exact hgetc2

theorem del_ttl {α : Type} (c : Cache α) (k : String) : (del c k).ttl = c.ttl := rfl

theorem evictLowPriority_ttl {α : Type} (c : Cache α) (now : ℤ) :
    (evictLowPriority c now).ttl = c.ttl := by
  unfold evictLowPriority
  split
  · exact del_ttl _ _
  · split
    · rfl
    · rfl

theorem setStr_ttl {α : Type} (c : Cache α) (k : String) (v : α) (pr : Option ℤ)
    (now : ℤ) : (setStr c k v pr now).ttl = c.ttl := by
  unfold setStr
  dsimp only
  split
  · rw [evictLowPriority_ttl]
    rfl
  · rfl


end ApiCache

/-- C3: for any cache state, string key `k` and value `v`, a `set(k, v)` at
time `t0` followed by a `get(k)` at time `t1` with `t1 - t0` within the ttl
returns `v` (the cache must hold at least one slot, else the fresh entry
itself is the LRU-fallback eviction victim); and a `get(k)` performed when
`now - insertedAt` exceeds the ttl returns null, removes the entry from the
store, and counts the access as a miss. -/
theorem apiCache_ttl_get {α : Type} (c : ApiCache.Cache α) (k : String) (v : α)
    (now0 now1 : ℤ) (hmax : 1 ≤ c.maxSize) (hfresh : now1 - now0 ≤ c.ttl) :
    (ApiCache.get (ApiCache.setStr c k v none now0) k now1).1 = some v ∧
    (∀ (d : ApiCache.Cache α) (e : ApiCache.Entry α),
      ApiCache.mapGet d.cache k = some e → now1 - e.t > d.ttl →
      (ApiCache.get d k now1).1 = none ∧
      ApiCache.mapGet ((ApiCache.get d k now1).2).cache k = none ∧
      ((ApiCache.get d k now1).2).misses = d.misses + 1) := by
  constructor
  · have hentry := ApiCache.setStr_mapGet_self c k v now0 hmax
    unfold ApiCache.get
    rw [hentry]
    dsimp only
    rw [if_neg (by rw [ApiCache.setStr_ttl]; omega)]
  · intro d e hd hexp
    unfold ApiCache.get
    rw [hd]
    dsimp only
    rw [if_pos (by omega)]
    refine ⟨rfl, ?_, rfl⟩
    exact ApiCache.mapGet_mapDelete_self _ _

/-- Witness for C3 at a concrete cache (ttl 100, maxSize 2), key "a",
value 7, insertion time 0 and read time 50. -/
theorem apiCache_ttl_get_witness :
    (1 ≤ (ApiCache.mkCache 100 2 : ApiCache.Cache ℕ).maxSize ∧
      (50 : ℤ) - 0 ≤ (ApiCache.mkCache 100 2 : ApiCache.Cache ℕ).ttl) ∧
    ((ApiCache.get (ApiCache.setStr (ApiCache.mkCache 100 2 : ApiCache.Cache ℕ) "a" 7 none 0) "a" 50).1 = some 7 ∧
    (∀ (d : ApiCache.Cache ℕ) (e : ApiCache.Entry ℕ),
      ApiCache.mapGet d.cache "a" = some e → (50 : ℤ) - e.t > d.ttl →
      (ApiCache.get d "a" 50).1 = none ∧
      ApiCache.mapGet ((ApiCache.get d "a" 50).2).cache "a" = none ∧
      ((ApiCache.get d "a" 50).2).misses = d.misses + 1)) :=
  ⟨⟨by decide, by decide⟩,
    apiCache_ttl_get (ApiCache.mkCache 100 2 : ApiCache.Cache ℕ) "a" 7 0 50
      (by decide) (by decide)⟩

/-- The priority actually stored by `set`: the explicit argument, or the
auto-detected one when the argument is `null`. -/
def ApiCache.chosenPriority (priority : Option ℤ) (key : String) : ℤ :=
  match priority with
  | none => ApiCache.detectPriority key
  | some q => q

/-- An entry is selectable by the `evictLowPriority` scan precisely when its
effective priority exceeds the scan seed 3, or equals 3 with an insertion
time strictly before the scan instant (the seed `oldestTime = Date.now()`). -/
def ApiCache.qualifies {α : Type} (priorities : List (String × ℤ)) (now : ℤ)
    (kv : String × ApiCache.Entry α) : Prop :=
  3 < ApiCache.effPriority priorities kv.1 ∨
    (ApiCache.effPriority priorities kv.1 = 3 ∧ kv.2.t < now)

instance {α : Type} (priorities : List (String × ℤ)) (now : ℤ)
    (kv : String × ApiCache.Entry α) :
    Decidable (ApiCache.qualifies priorities now kv) := by
  unfold ApiCache.qualifies
  infer_instance

/-- Well-formed cache states: keys are unique and the access-order list is
a permutation of the stored keys.  `mkCache` satisfies it and all cache
operations preserve it. -/
def ApiCache.WF {α : Type} (c : ApiCache.Cache α) : Prop :=
  (c.cache.map Prod.fst).Nodup ∧ c.order.Perm (c.cache.map Prod.fst)

instance {α : Type} [DecidableEq α] (c : ApiCache.Cache α) :
    Decidable (ApiCache.WF c) := by
  unfold ApiCache.WF
  infer_instance

/-- Concrete run for the C4 counterexample: two priority-1 entries inserted
at times 0 and 1, then a `get` of the older key (which moves it to the end
of the access order), then an overflowing priority-1 insert at time 3. -/
def cacheC4a : ApiCache.Cache ℕ :=
  ApiCache.setStr (ApiCache.mkCache 1000 2) "a" 0 (some 1) 0

def cacheC4b : ApiCache.Cache ℕ := ApiCache.setStr cacheC4a "b" 0 (some 1) 1

def cacheC4c : ApiCache.Cache ℕ := (ApiCache.get cacheC4b "a" 2).2

def cacheC4d : ApiCache.Cache ℕ := ApiCache.setStr cacheC4c "c" 0 (some 1) 3

/-- C4 counterexample: priority metadata is present for every entry (all
priorities equal 1, a tie), and the tie-break by oldest insertion time
designates "a" (inserted at time 0, before "b" at time 1); the claimed
eviction rule therefore evicts "a".  The code instead falls back to plain
LRU — although priority metadata is present — and evicts "b", the
least-recently-accessed key.  This refutes both the claimed victim rule and
the claim that the LRU fallback applies only when priority metadata is
absent. -/
theorem apiCache_eviction_policy_counterexample :
    (ApiCache.mapGet cacheC4c.priorities "a" = some 1 ∧
     ApiCache.mapGet cacheC4c.priorities "b" = some 1) ∧
    ((ApiCache.mapGet cacheC4c.cache "a").map ApiCache.Entry.t = some 0 ∧
     (ApiCache.mapGet cacheC4c.cache "b").map ApiCache.Entry.t = some 1) ∧
    cacheC4c.cache.length = 2 ∧ cacheC4c.maxSize = 2 ∧
    ApiCache.mapGet cacheC4d.cache "b" = none ∧
    ApiCache.mapGet cacheC4d.cache "a" = some { value := 0, t := 0, priority := 1 } ∧
    cacheC4d.cache.length = 2 := by
  decide

/-- C10: `ApiCache.set` throws "Key must be string" for every non-string
key, leaving the whole cache state unchanged (the check precedes any
mutation), and never throws for string keys.  The same type check appears
verbatim in both `ApiCache` variants of the file. -/
theorem apiCache_set_requires_string_key {α : Type} (c : ApiCache.Cache α)
    (k : ApiCache.JSKey) (v : α) (pr : Option ℤ) (now : ℤ) :
    (k.isString = false →
      ApiCache.set c k v pr now = (some "Key must be string", c)) ∧
    (k.isString = true → (ApiCache.set c k v pr now).1 = none) := by
  cases k with
  | str s => exact ⟨fun h => by simp [ApiCache.JSKey.isString] at h, fun _ => rfl⟩
  | num n => exact ⟨fun _ => rfl, fun h => by simp [ApiCache.JSKey.isString] at h⟩
  | other => exact ⟨fun _ => rfl, fun h => by simp [ApiCache.JSKey.isString] at h⟩

/-- Witness for C10: a numeric key throws and leaves the cache unchanged; a
string key does not throw. -/
theorem apiCache_set_requires_string_key_witness :
    ((ApiCache.JSKey.num 5).isString = false ∧
      ApiCache.set (ApiCache.mkCache 100 2 : ApiCache.Cache ℕ) (ApiCache.JSKey.num 5) 7 none 0 =
        (some "Key must be string", (ApiCache.mkCache 100 2 : ApiCache.Cache ℕ))) ∧
    ((ApiCache.JSKey.str "a").isString = true ∧
      (ApiCache.set (ApiCache.mkCache 100 2 : ApiCache.Cache ℕ) (ApiCache.JSKey.str "a") 7 none 0).1 = none) :=
  ⟨⟨rfl, (apiCache_set_requires_string_key (ApiCache.mkCache 100 2 : ApiCache.Cache ℕ)
      (ApiCache.JSKey.num 5) 7 none 0).1 rfl⟩,
   ⟨rfl, (apiCache_set_requires_string_key (ApiCache.mkCache 100 2 : ApiCache.Cache ℕ)
      (ApiCache.JSKey.str "a") 7 none 0).2 rfl⟩⟩


/-! ### C4: characterization of the `evictLowPriority` victim -/

namespace ApiCache

/-- Invariant of the `evictLowPriority` scan over the processed prefix:
either nothing qualifying has been seen and the accumulator still holds the
seed, or the accumulator holds a processed qualifying entry of maximal
effective priority whose insertion time is minimal at that priority. -/
def ScanInv {α : Type} (priorities : List (String × ℤ)) (now : ℤ)
    (processed : List (String × Entry α)) (st : ScanState) : Prop :=
  (st.oldestKey = none ∧ st.lowestPriority = 3 ∧ st.oldestTime = now ∧
    ∀ kv ∈ processed, ¬ qualifies priorities now kv) ∨
  (∃ j e, st.oldestKey = some j ∧ (j, e) ∈ processed ∧
    qualifies priorities now (j, e) ∧
    st.lowestPriority = effPriority priorities j ∧ st.oldestTime = e.t ∧
    ∀ kv ∈ processed, qualifies priorities now kv →
      (effPriority priorities kv.1 < effPriority priorities j ∨
       (effPriority priorities kv.1 = effPriority priorities j ∧ e.t ≤ kv.2.t)))

theorem scanInv_step {α : Type} {priorities : List (String × ℤ)} {now : ℤ}
    {processed : List (String × Entry α)} {st : ScanState} (kv : String × Entry α)
    (h : ScanInv priorities now processed st) :
    ScanInv priorities now (processed ++ [kv]) (scanStep priorities st kv) := by
  unfold scanStep
  rcases h with ⟨hok, hlp, hot, hall⟩ | ⟨j, e, hok, hmem, hq, hlp, hot, hbest⟩
  · split
    · rename_i hgt
      right
      refine ⟨kv.1, kv.2, rfl, by simp, Or.inl (by first | omega | (dsimp only; omega)), by rfl,
        by rfl, ?_⟩
      intro kv2 hmem2 hq2
      rcases List.mem_append.mp hmem2 with hmem2 | hmem2
      · exact absurd hq2 (hall kv2 hmem2)
      · simp only [List.mem_singleton] at hmem2
        subst hmem2
        exact Or.inr ⟨by rfl, by rfl⟩
    · split
      · rename_i hngt hcond
        obtain ⟨hpeq, htlt⟩ := hcond
        right
        refine ⟨kv.1, kv.2, rfl, by simp,
          Or.inr ⟨by first | omega | (dsimp only; omega), by first | omega | (dsimp only; omega)⟩,
          by first | omega | (dsimp only; omega), by rfl, ?_⟩
        intro kv2 hmem2 hq2
        rcases List.mem_append.mp hmem2 with hmem2 | hmem2
        · exact absurd hq2 (hall kv2 hmem2)
        · simp only [List.mem_singleton] at hmem2
          subst hmem2
          exact Or.inr ⟨by rfl, by rfl⟩
      · rename_i hngt hncond
        left
        refine ⟨hok, hlp, hot, ?_⟩
        intro kv2 hmem2
        rcases List.mem_append.mp hmem2 with hmem2 | hmem2
        · exact hall kv2 hmem2
        · simp only [List.mem_singleton] at hmem2
          subst hmem2
          intro hq2
          rcases hq2 with hq2 | hq2
          · exact hngt (by first | omega | (dsimp only; omega))
          · exact hncond ⟨by first | omega | (dsimp only; omega), by first | omega | (dsimp only; omega)⟩
  · have hq2 := hq
    unfold qualifies at hq2
    dsimp only at hq2
    have hjge : 3 ≤ effPriority priorities j := by
      rcases hq2 with hc | hc
      · omega
      · omega
    split
    · rename_i hgt
      right
      have hkvq : qualifies priorities now kv := Or.inl (by first | omega | (dsimp only; omega))
      refine ⟨kv.1, kv.2, rfl, by simp, by simpa using hkvq, by rfl,
        by rfl, ?_⟩
      intro kv2 hmem2 hq3
      rcases List.mem_append.mp hmem2 with hmem2 | hmem2
      · rcases hbest kv2 hmem2 hq3 with hc | hc
        · exact Or.inl (by first | omega | (dsimp only; omega))
        · exact Or.inl (by first | omega | (dsimp only; omega))
      · simp only [List.mem_singleton] at hmem2
        subst hmem2
        exact Or.inr ⟨by rfl, by rfl⟩
    · split
      · rename_i hngt hcond
        obtain ⟨hpeq, htlt⟩ := hcond
        right
        have hkvq : qualifies priorities now kv := by
          rcases hq2 with hc | hc
          · exact Or.inl (by first | omega | (dsimp only; omega))
          · exact Or.inr ⟨by first | omega | (dsimp only; omega), by first | omega | (dsimp only; omega)⟩
        refine ⟨kv.1, kv.2, rfl, by simp, by simpa using hkvq,
          by first | omega | (dsimp only; omega), by rfl, ?_⟩
        intro kv2 hmem2 hq3
        rcases List.mem_append.mp hmem2 with hmem2 | hmem2
        · rcases hbest kv2 hmem2 hq3 with hc | hc
          · exact Or.inl (by first | omega | (dsimp only; omega))
          · exact Or.inr ⟨by first | omega | (dsimp only; omega), by first | omega | (dsimp only; omega)⟩
        · simp only [List.mem_singleton] at hmem2
          subst hmem2
          exact Or.inr ⟨by rfl, by rfl⟩
      · rename_i hngt hncond
        right
        refine ⟨j, e, hok, List.mem_append_left _ hmem, hq, hlp, hot, ?_⟩
        intro kv2 hmem2 hq3
        rcases List.mem_append.mp hmem2 with hmem2 | hmem2
        · exact hbest kv2 hmem2 hq3
        · simp only [List.mem_singleton] at hmem2
          subst hmem2
          have hple : effPriority priorities kv2.1 ≤ effPriority priorities j := by omega
          rcases lt_or_eq_of_le hple with hc | hc
          · exact Or.inl hc
          · refine Or.inr ⟨hc, ?_⟩
            by_contra hlt
            push_neg at hlt
            exact hncond ⟨by first | omega | (dsimp only; omega), by first | omega | (dsimp only; omega)⟩

theorem scanInv_fold {α : Type} (priorities : List (String × ℤ)) (now : ℤ)
    (l : List (String × Entry α)) :
    ∀ (processed : List (String × Entry α)) (st : ScanState),
    ScanInv priorities now processed st →
    ScanInv priorities now (processed ++ l) (l.foldl (scanStep priorities) st) := by
  induction l with
  | nil => intro processed st h; simpa using h
  | cons kv rest ih =>
    intro processed st h
    simp only [List.foldl_cons]
    have h2 := ih (processed ++ [kv]) _ (scanInv_step kv h)
    simpa [List.append_assoc] using h2

theorem scanInv_evictChoice {α : Type} (priorities : List (String × ℤ)) (now : ℤ)
    (l : List (String × Entry α)) :
    ScanInv priorities now l (l.foldl (scanStep priorities) ⟨3, none, now⟩) := by
  have h := scanInv_fold priorities now l [] ⟨3, none, now⟩
    (Or.inl ⟨rfl, rfl, rfl, by simp⟩)
  simpa using h

theorem evictChoice_eq_none_iff {α : Type} (priorities : List (String × ℤ)) (now : ℤ)
    (l : List (String × Entry α)) :
    evictChoice l priorities now = none ↔ ∀ kv ∈ l, ¬ qualifies priorities now kv := by
  have hinv := scanInv_evictChoice priorities now l
  unfold evictChoice
  constructor
  · intro hnone
    rcases hinv with ⟨_, _, _, hall⟩ | ⟨j, e, hok, _, _, _, _, _⟩
    · exact hall
    · rw [hnone] at hok
      exact absurd hok (by simp)
  · intro hall
    rcases hinv with ⟨hok, _, _, _⟩ | ⟨j, e, hok, hmem, hq, _, _, _⟩
    · exact hok
    · exact absurd hq (hall (j, e) hmem)

theorem evictChoice_eq_some_spec {α : Type} (priorities : List (String × ℤ)) (now : ℤ)
    (l : List (String × Entry α)) (j : String)
    (h : evictChoice l priorities now = some j) :
    ∃ e, (j, e) ∈ l ∧ qualifies priorities now (j, e) ∧
      ∀ kv ∈ l, qualifies priorities now kv →
        (effPriority priorities kv.1 < effPriority priorities j ∨
         (effPriority priorities kv.1 = effPriority priorities j ∧ e.t ≤ kv.2.t)) := by
  have hinv := scanInv_evictChoice priorities now l
  unfold evictChoice at h
  rcases hinv with ⟨hok, _, _, _⟩ | ⟨j2, e, hok, hmem, hq, _, _, hbest⟩
  · rw [h] at hok
    exact absurd hok (by simp)
  · rw [h] at hok
    have : j2 = j := by simpa using hok.symm
    subst this
    exact ⟨e, hmem, hq, hbest⟩

theorem mapDelete_of_not_mem {β : Type} (l : List (String × β)) (k : String)
    (h : mapGet l k = none) : mapDelete l k = l := by
  have hall := (mapGet_none_iff _ _).mp h
  unfold mapDelete
  rw [List.filter_eq_self]
  intro kv hmem
  simpa [bne_iff_ne] using hall kv hmem

theorem map_fst_mapDelete {β : Type} (l : List (String × β)) (k : String) :
    (mapDelete l k).map Prod.fst = (l.map Prod.fst).filter (fun x => x != k) := by
  induction l with
  | nil => rfl
  | cons kv rest ih =>
    unfold mapDelete at ih ⊢
    rcases hb : (kv.1 != k) with _ | _
    · simp [List.filter_cons, hb, ih]
    · simp [List.filter_cons, hb, ih]

theorem filter_ne_length_of_mem {u : List String} {j : String}
    (hnd : u.Nodup) (hmem : j ∈ u) :
    (u.filter (fun x => x != j)).length = u.length - 1 := by
  induction u with
  | nil => simp at hmem
  | cons x xs ih =>
    by_cases hx : x = j
    · subst hx
      have hnmem : x ∉ xs := (List.nodup_cons.mp hnd).1
      have hfil : xs.filter (fun y => y != x) = xs :=
        List.filter_eq_self.mpr (fun a ha => by
          simp only [bne_iff_ne, ne_eq]
          exact fun hc => hnmem (hc ▸ ha))
      rw [List.filter_cons]
      simp only [bne_self_eq_false, Bool.false_eq_true, if_false, hfil, List.length_cons]
      omega
    · have hne : (x != j) = true := by simpa using hx
      have hmem2 : j ∈ xs := by
        rcases List.mem_cons.mp hmem with h | h
        · exact absurd h.symm hx
        · exact h
      have hlen := ih (List.nodup_cons.mp hnd).2 hmem2
      have hpos : 1 ≤ xs.length := List.length_pos.mpr (List.ne_nil_of_mem hmem2)
      rw [List.filter_cons]
      simp only [hne, if_true, List.length_cons]
      omega

theorem filter_ne_head_of_nodup {o : String} {rest : List String}
    (hnmem : o ∉ rest) :
    ((o :: rest).filter (fun x => x != o)) = rest := by
  rw [List.filter_cons]
  simp only [bne_self_eq_false, Bool.false_eq_true, if_false]
  exact List.filter_eq_self.mpr (fun a ha => by
    simp only [bne_iff_ne, ne_eq]
    exact fun hc => hnmem (hc ▸ ha))

/-- The entries scanned by `evictLowPriority` during an at-capacity `set` of
a fresh key: the old entries followed by the new one. -/
def pendingEntries {α : Type} (c : Cache α) (k : String) (v : α) (pr : Option ℤ)
    (now : ℤ) : List (String × Entry α) :=
  c.cache ++ [(k, { value := v, t := now, priority := chosenPriority pr k })]

/-- The priorities Map visible to that scan. -/
def pendingPriorities {α : Type} (c : Cache α) (k : String) (pr : Option ℤ) :
    List (String × ℤ) :=
  mapSet (mapDelete c.priorities k) k (chosenPriority pr k)

end ApiCache

namespace ApiCache

/-- Core of the amended C4 claim, for an explicitly supplied priority
(`set(key, value, q)`); the public claim theorem derives the
automatic-priority case from it since `setStr` only consults the argument
through `chosenPriority`. -/
theorem setStr_bound_and_eviction_core {α : Type} (c : Cache α) (k : String) (v : α)
    (q now : ℤ) (hwf : WF c) (hbound : c.cache.length ≤ c.maxSize) :
    WF (setStr c k v (some q) now) ∧
    (setStr c k v (some q) now).cache.length ≤ c.maxSize ∧
    (c.cache.length = c.maxSize → mapGet c.cache k = none →
      (setStr c k v (some q) now).cache.length = c.maxSize ∧
      (∀ j, evictChoice (c.cache ++ [(k, { value := v, t := now, priority := q })])
          (mapSet (mapDelete c.priorities k) k q) now = some j →
        (∃ e, (j, e) ∈ c.cache ++ [(k, { value := v, t := now, priority := q })] ∧
          qualifies (mapSet (mapDelete c.priorities k) k q) now (j, e) ∧
          ∀ kv ∈ c.cache ++ [(k, { value := v, t := now, priority := q })],
            qualifies (mapSet (mapDelete c.priorities k) k q) now kv →
            (effPriority (mapSet (mapDelete c.priorities k) k q) kv.1 <
               effPriority (mapSet (mapDelete c.priorities k) k q) j ∨
             (effPriority (mapSet (mapDelete c.priorities k) k q) kv.1 =
               effPriority (mapSet (mapDelete c.priorities k) k q) j ∧
              e.t ≤ kv.2.t))) ∧
        (setStr c k v (some q) now).cache =
          mapDelete (c.cache ++ [(k, { value := v, t := now, priority := q })]) j) ∧
      (evictChoice (c.cache ++ [(k, { value := v, t := now, priority := q })])
          (mapSet (mapDelete c.priorities k) k q) now = none →
        (∀ kv ∈ c.cache ++ [(k, { value := v, t := now, priority := q })],
          ¬ qualifies (mapSet (mapDelete c.priorities k) k q) now kv) ∧
        ∀ o rest, c.order.filter (fun x => x != k) ++ [k] = o :: rest →
          (setStr c k v (some q) now).cache =
            mapDelete (c.cache ++ [(k, { value := v, t := now, priority := q })]) o)) := by
  obtain ⟨hnd, hperm⟩ := hwf
  have hgetD : mapGet (mapDelete c.cache k) k = none := mapGet_mapDelete_self _ _
  have hDe : mapSet (mapDelete c.cache k) k { value := v, t := now, priority := q } =
      mapDelete c.cache k ++ [(k, { value := v, t := now, priority := q })] :=
    mapSet_of_not_mem _ _ _ hgetD
  have hkeysD : (mapDelete c.cache k).map Prod.fst =
      (c.cache.map Prod.fst).filter (fun x => x != k) := map_fst_mapDelete _ _
  have hndD : ((mapDelete c.cache k).map Prod.fst).Nodup := by
    rw [hkeysD]
    exact hnd.filter _
  have hknotin : ∀ x ∈ (mapDelete c.cache k).map Prod.fst, x ≠ k := by
    intro x hx
    rw [hkeysD] at hx
    simpa [bne_iff_ne] using List.of_mem_filter hx
  have hfst2 : (mapSet (mapDelete c.cache k) k { value := v, t := now, priority := q }).map Prod.fst =
      (mapDelete c.cache k).map Prod.fst ++ [k] := by
    rw [hDe]
    simp
  have hnd2 : ((mapDelete c.cache k).map Prod.fst ++ [k]).Nodup := by
    rw [List.nodup_append]
    exact ⟨hndD, List.nodup_singleton k,
      fun x hx => by simpa using hknotin x hx⟩
  have hordperm : (c.order.filter (fun x => x != k)).Perm
      ((mapDelete c.cache k).map Prod.fst) := by
    rw [hkeysD]
    exact hperm.filter _
  have horder2perm : (c.order.filter (fun x => x != k) ++ [k]).Perm
      ((mapDelete c.cache k).map Prod.fst ++ [k]) :=
    hordperm.append (List.Perm.refl [k])
  have hlenD_le : (mapDelete c.cache k).length ≤ c.cache.length :=
    List.length_filter_le _ _
  have hlenD_map : ((mapDelete c.cache k).map Prod.fst).length = (mapDelete c.cache k).length :=
    List.length_map _ _
  have hlen2 : (mapSet (mapDelete c.cache k) k { value := v, t := now, priority := q }).length =
      (mapDelete c.cache k).length + 1 := by
    rw [hDe]
    simp
  have hlenord2 : (c.order.filter (fun x => x != k) ++ [k]).length =
      (mapDelete c.cache k).length + 1 := by
    have := horder2perm.length_eq
    simp only [List.length_append, List.length_singleton] at this ⊢
    omega
  unfold setStr del
  dsimp only
  split
  · rename_i hover
    unfold evictLowPriority
    dsimp only
    split
    · rename_i j hj
      obtain ⟨ej, hjmem, hjq, hjbest⟩ := evictChoice_eq_some_spec _ _ _ _ hj
      have hjkeys : j ∈ (mapDelete c.cache k).map Prod.fst ++ [k] := by
        rw [← hfst2]
        exact List.mem_map.mpr ⟨(j, ej), hjmem, rfl⟩
      have hlendel : (mapDelete (mapSet (mapDelete c.cache k) k
          { value := v, t := now, priority := q }) j).length =
          (mapDelete c.cache k).length := by
        have h1 : (mapDelete (mapSet (mapDelete c.cache k) k
            { value := v, t := now, priority := q }) j).length =
            ((mapDelete (mapSet (mapDelete c.cache k) k
              { value := v, t := now, priority := q }) j).map Prod.fst).length :=
          (List.length_map _ _).symm
        rw [h1, map_fst_mapDelete, hfst2,
          filter_ne_length_of_mem hnd2 hjkeys]
        simp
      unfold del
      dsimp only
      refine ⟨?_, ?_, ?_⟩
      · constructor
        · rw [map_fst_mapDelete, hfst2]
          exact hnd2.filter _
        · rw [map_fst_mapDelete, hfst2]
          exact horder2perm.filter _
      · omega
      · intro hcap hfresh
        have hDc : mapDelete c.cache k = c.cache := mapDelete_of_not_mem _ _ hfresh
        have hpend : mapSet (mapDelete c.cache k) k { value := v, t := now, priority := q } =
            c.cache ++ [(k, { value := v, t := now, priority := q })] := by
          rw [hDe, hDc]
        refine ⟨by omega, ?_, ?_⟩
        · intro j2 hj2
          rw [← hpend] at hj2
          have hj2j : j2 = j := by
            rw [hj] at hj2
            simpa using hj2.symm
          subst hj2j
          rw [← hpend]
          exact ⟨⟨ej, hjmem, hjq, hjbest⟩, rfl⟩
        · intro hnone
          rw [← hpend, hj] at hnone
          exact absurd hnone (by simp)
    · rename_i hnone
      split
      · rename_i heqnil
        exact absurd heqnil (by simp)
      · rename_i o rest heq
        have homem : o ∈ (mapDelete c.cache k).map Prod.fst ++ [k] := by
          have : o ∈ c.order.filter (fun x => x != k) ++ [k] := by
            rw [heq]
            simp
          exact horder2perm.mem_iff.mp this
        have hord2nd : (c.order.filter (fun x => x != k) ++ [k]).Nodup :=
          horder2perm.nodup_iff.mpr hnd2
        have honotin : o ∉ rest := by
          rw [heq] at hord2nd
          exact (List.nodup_cons.mp hord2nd).1
        have hlendel : (mapDelete (mapSet (mapDelete c.cache k) k
            { value := v, t := now, priority := q }) o).length =
            (mapDelete c.cache k).length := by
          have h1 : (mapDelete (mapSet (mapDelete c.cache k) k
              { value := v, t := now, priority := q }) o).length =
              ((mapDelete (mapSet (mapDelete c.cache k) k
                { value := v, t := now, priority := q }) o).map Prod.fst).length :=
            (List.length_map _ _).symm
          rw [h1, map_fst_mapDelete, hfst2,
            filter_ne_length_of_mem hnd2 homem]
          simp
        dsimp only
        refine ⟨?_, ?_, ?_⟩
        · constructor
          · rw [map_fst_mapDelete, hfst2]
            exact hnd2.filter _
          · rw [map_fst_mapDelete, hfst2]
            have hrest : rest = (c.order.filter (fun x => x != k) ++ [k]).filter
                (fun x => x != o) := by
              rw [heq, filter_ne_head_of_nodup honotin]
            rw [hrest]
            exact horder2perm.filter _
        · omega
        · intro hcap hfresh
          have hDc : mapDelete c.cache k = c.cache := mapDelete_of_not_mem _ _ hfresh
          have hpend : mapSet (mapDelete c.cache k) k { value := v, t := now, priority := q } =
              c.cache ++ [(k, { value := v, t := now, priority := q })] := by
            rw [hDe, hDc]
          refine ⟨by omega, ?_, ?_⟩
          · intro j2 hj2
            rw [← hpend, hnone] at hj2
            exact absurd hj2 (by simp)
          · intro _
            constructor
            · rw [← hpend]
              exact (evictChoice_eq_none_iff _ _ _).mp hnone
            · intro o2 rest2 heq2
              have ho2 : o2 = o := by
                rw [heq] at heq2
                exact (List.cons.injEq .. ▸ heq2).1.symm
              subst ho2
              rw [← hpend]
  · rename_i hnover
    refine ⟨⟨by rw [hfst2]; exact hnd2, by rw [hfst2]; exact horder2perm⟩, ?_, ?_⟩
    · dsimp only
      rw [hlen2]
      omega
    · intro hcap hfresh
      exfalso
      have hDc : mapDelete c.cache k = c.cache := mapDelete_of_not_mem _ _ hfresh
      rw [hDc] at hlenord2
      omega

end ApiCache

/-- C4 (amended): on a well-formed state, `set` never leaves the store with
more than `maxSize` entries, and inserting a distinct new key at capacity
triggers exactly one eviction.  The evicted entry is the one with the
largest effective priority and, among ties, the oldest insertion time —
but only among the entries the scan can select: those whose effective
priority exceeds the seed 3, or equals 3 with insertion time strictly
before the eviction instant.  When no entry is selectable, the plain-LRU
fallback (evict the head of the access order) applies even though priority
metadata is present. -/
theorem apiCache_set_bound_and_eviction_rule {α : Type} (c : ApiCache.Cache α)
    (k : String) (v : α) (pr : Option ℤ) (now : ℤ)
    (hwf : ApiCache.WF c) (hbound : c.cache.length ≤ c.maxSize) :
    ApiCache.WF (ApiCache.setStr c k v pr now) ∧
    (ApiCache.setStr c k v pr now).cache.length ≤ c.maxSize ∧
    (c.cache.length = c.maxSize → ApiCache.mapGet c.cache k = none →
      (ApiCache.setStr c k v pr now).cache.length = c.maxSize ∧
      (∀ j, ApiCache.evictChoice (ApiCache.pendingEntries c k v pr now)
          (ApiCache.pendingPriorities c k pr) now = some j →
        (∃ e, (j, e) ∈ ApiCache.pendingEntries c k v pr now ∧
          ApiCache.qualifies (ApiCache.pendingPriorities c k pr) now (j, e) ∧
          ∀ kv ∈ ApiCache.pendingEntries c k v pr now,
            ApiCache.qualifies (ApiCache.pendingPriorities c k pr) now kv →
            (ApiCache.effPriority (ApiCache.pendingPriorities c k pr) kv.1 <
               ApiCache.effPriority (ApiCache.pendingPriorities c k pr) j ∨
             (ApiCache.effPriority (ApiCache.pendingPriorities c k pr) kv.1 =
               ApiCache.effPriority (ApiCache.pendingPriorities c k pr) j ∧
              e.t ≤ kv.2.t))) ∧
        (ApiCache.setStr c k v pr now).cache =
          ApiCache.mapDelete (ApiCache.pendingEntries c k v pr now) j) ∧
      (ApiCache.evictChoice (ApiCache.pendingEntries c k v pr now)
          (ApiCache.pendingPriorities c k pr) now = none →
        (∀ kv ∈ ApiCache.pendingEntries c k v pr now,
          ¬ ApiCache.qualifies (ApiCache.pendingPriorities c k pr) now kv) ∧
        ∀ o rest, c.order.filter (fun x => x != k) ++ [k] = o :: rest →
          (ApiCache.setStr c k v pr now).cache =
            ApiCache.mapDelete (ApiCache.pendingEntries c k v pr now) o)) := by
  have hset : ApiCache.setStr c k v pr now =
      ApiCache.setStr c k v (some (ApiCache.chosenPriority pr k)) now := by
    cases pr <;> rfl
  have h := ApiCache.setStr_bound_and_eviction_core c k v
    (ApiCache.chosenPriority pr k) now ⟨hwf.1, hwf.2⟩ hbound
  rw [hset]
  unfold ApiCache.pendingEntries ApiCache.pendingPriorities
  exact h

/-- Concrete at-capacity cache for the C4 witness: one priority-5 entry
(qualifying for the scan) and one priority-1 entry. -/
def cacheC4w : ApiCache.Cache ℕ :=
  { cache := [("x", { value := 0, t := 0, priority := 5 }),
              ("y", { value := 0, t := 1, priority := 1 })],
    order := ["x", "y"],
    priorities := [("x", 5), ("y", 1)],
    ttl := 1000, maxSize := 2, hits := 0, misses := 0 }

/-- Witness for C4 (amended): the concrete cache is well-formed and at
capacity, the inserted key "z" is fresh, and the theorem yields that the
insert leaves exactly `maxSize` entries. -/
theorem apiCache_set_bound_and_eviction_rule_witness :
    ApiCache.WF cacheC4w ∧ cacheC4w.cache.length ≤ cacheC4w.maxSize ∧
    cacheC4w.cache.length = cacheC4w.maxSize ∧
    ApiCache.mapGet cacheC4w.cache "z" = none ∧
    (ApiCache.setStr cacheC4w "z" 0 (some 1) 2).cache.length = cacheC4w.maxSize :=
  ⟨by decide, by decide, by decide, by decide,
    ((apiCache_set_bound_and_eviction_rule cacheC4w "z" 0 (some 1) 2
      (by decide) (by decide)).2.2 (by decide) (by decide)).1⟩

/-! ### VibeInferenceEngine: the pure tag-to-mood core of `inferVibe`
(`src/backend/server.js`, lines 271-313)

The Last.fm fetches are external; the embedding takes the pooled tag list
`allTags` as input and mirrors the counting, top-5 selection, sequential
mood tests, and confidence clamp.  A JS object with non-numeric string keys
enumerates in insertion order, so `tagCounts` is an insertion-ordered
association list; `Object.entries(...).sort((a, b) => b[1] - a[1])` is the
stable descending sort on counts. -/

namespace InferVibe

/-- One step of `allTags.forEach(tag => tagCounts[tag] = (tagCounts[tag] || 0) + 1)`. -/
def bump : List (String × ℕ) → String → List (String × ℕ)
  | [], t => [(t, 1)]
  | (t2, n) :: rest, t =>
    if t2 == t then (t2, n + 1) :: rest else (t2, n) :: bump rest t

def tagCounts (allTags : List String) : List (String × ℕ) :=
  allTags.foldl bump []

/-- `Object.entries(tagCounts).sort((a,b) => b[1] - a[1]).slice(0, 5).map(([tag]) => tag)`. -/
def topTagsOf (allTags : List String) : List String :=
  ((jsSortBy (fun a b : String × ℕ => b.2 ≤ a.2) (tagCounts allTags)).take 5).map Prod.fst

def melancholicKeywords : List String := ["sad", "melancholy", "depressing", "emotional"]

def partyKeywords : List String := ["party", "dance", "club", "energetic"]

def chillKeywords : List String := ["chill", "relaxing", "mellow", "ambient"]

/-- The sequential mood decision: melancholic keywords first, then party,
then chill; the first matching set wins, else the initial "neutral". -/
def moodOf (topTags : List String) : String × Option String :=
  if topTags.any (fun t => melancholicKeywords.contains t) then
    ("melancholic", some (if topTags.contains "dark" then "dark" else "intimate"))
  else if topTags.any (fun t => partyKeywords.contains t) then
    ("party", some (if topTags.contains "electronic" then "energetic" else "groovy"))
  else if topTags.any (fun t => chillKeywords.contains t) then
    ("chill", none)
  else
    ("neutral", none)

def sumCounts (counts : List (String × ℕ)) : ℕ :=
  counts.foldl (fun s kv => s + kv.2) 0

structure VibeResult where
  mood : String
  subMood : Option String
  tags : List String
  confidence : ℕ
deriving DecidableEq, Repr

/-- The pure core of `inferVibe` (mood, subMood, top tags, confidence);
`era`, `genres` and `description` only repackage the extra seed metadata. -/
def inferVibeCore (allTags : List String) : VibeResult :=
  { mood := (moodOf (topTagsOf allTags)).1,
    subMood := (moodOf (topTagsOf allTags)).2,
    tags := topTagsOf allTags,
    confidence := min 90 (max 20 (sumCounts (tagCounts allTags) * 15)) }

theorem sumCounts_bump (m : List (String × ℕ)) (t : String) :
    sumCounts (bump m t) = sumCounts m + 1 := by
  have key : ∀ (m : List (String × ℕ)) (acc : ℕ),
      (bump m t).foldl (fun s kv => s + kv.2) acc =
        m.foldl (fun s kv => s + kv.2) acc + 1 := by
    intro m
    induction m with
    | nil => intro acc; rfl
    | cons kv rest ih =>
      intro acc
      obtain ⟨t2, n⟩ := kv
      unfold bump
      split
      · simp only [List.foldl_cons]
        have swap : ∀ (l : List (String × ℕ)) (a b : ℕ),
            l.foldl (fun s kv => s + kv.2) (a + b) =
              l.foldl (fun s kv => s + kv.2) a + b := by
          intro l
          induction l with
          | nil => intro a b; rfl
          | cons kv2 rest2 ih2 =>
            intro a b
            simp only [List.foldl_cons]
            have : a + b + kv2.2 = a + kv2.2 + b := by omega
            rw [this, ih2]
        have h1 : acc + (n + 1) = acc + n + 1 := by omega
        rw [h1, swap, swap]
      · simp only [List.foldl_cons]
        exact ih (acc + n)
  exact key m 0

theorem sumCounts_tagCounts (allTags : List String) :
    sumCounts (tagCounts allTags) = allTags.length := by
  have key : ∀ (l : List String) (m : List (String × ℕ)),
      sumCounts (l.foldl bump m) = sumCounts m + l.length := by
    intro l
    induction l with
    | nil => intro m; simp
    | cons t rest ih =>
      intro m
      simp only [List.foldl_cons, List.length_cons]
      rw [ih, sumCounts_bump]
      omega
  have h := key allTags []
  unfold tagCounts
  rw [h]
  simp [sumCounts]

end InferVibe

/-- C6: `inferVibe` decides the mood by sequential keyword-set membership
tests over the top-5 tags in fixed priority order — melancholic first, then
party, then chill, with "neutral" as default — and the first matching set
wins; in particular any input whose top tags contain both "sad" and "party"
resolves to melancholic, never party. -/
theorem inferVibe_mood_priority (allTags : List String) :
    ((InferVibe.inferVibeCore allTags).tags.any
        (fun t => InferVibe.melancholicKeywords.contains t) = true →
      (InferVibe.inferVibeCore allTags).mood = "melancholic") ∧
    ((InferVibe.inferVibeCore allTags).tags.any
        (fun t => InferVibe.melancholicKeywords.contains t) = false →
      (InferVibe.inferVibeCore allTags).tags.any
        (fun t => InferVibe.partyKeywords.contains t) = true →
      (InferVibe.inferVibeCore allTags).mood = "party") ∧
    ((InferVibe.inferVibeCore allTags).tags.any
        (fun t => InferVibe.melancholicKeywords.contains t) = false →
      (InferVibe.inferVibeCore allTags).tags.any
        (fun t => InferVibe.partyKeywords.contains t) = false →
      (InferVibe.inferVibeCore allTags).tags.any
        (fun t => InferVibe.chillKeywords.contains t) = true →
      (InferVibe.inferVibeCore allTags).mood = "chill") ∧
    ((InferVibe.inferVibeCore allTags).tags.any
        (fun t => InferVibe.melancholicKeywords.contains t) = false →
      (InferVibe.inferVibeCore allTags).tags.any
        (fun t => InferVibe.partyKeywords.contains t) = false →
      (InferVibe.inferVibeCore allTags).tags.any
        (fun t => InferVibe.chillKeywords.contains t) = false →
      (InferVibe.inferVibeCore allTags).mood = "neutral") ∧
    ("sad" ∈ (InferVibe.inferVibeCore allTags).tags →
      "party" ∈ (InferVibe.inferVibeCore allTags).tags →
      (InferVibe.inferVibeCore allTags).mood = "melancholic") := by
  unfold InferVibe.inferVibeCore InferVibe.moodOf
  dsimp only
  refine ⟨?_, ?_, ?_, ?_, ?_⟩
  · intro h
    rw [if_pos h]
  · intro h1 h2
    rw [if_neg (by rw [h1]; exact Bool.false_ne_true), if_pos h2]
  · intro h1 h2 h3
    rw [if_neg (by rw [h1]; exact Bool.false_ne_true), if_neg (by rw [h2]; exact Bool.false_ne_true), if_pos h3]
  · intro h1 h2 h3
    rw [if_neg (by rw [h1]; exact Bool.false_ne_true), if_neg (by rw [h2]; exact Bool.false_ne_true), if_neg (by rw [h3]; exact Bool.false_ne_true)]
  · intro hsad hparty
    have h : (InferVibe.topTagsOf allTags).any
        (fun t => InferVibe.melancholicKeywords.contains t) = true := by
      rw [List.any_eq_true]
      exact ⟨"sad", hsad, by decide⟩
    rw [if_pos h]

/-- Witness for C6: the tag pool ["sad", "party"] yields top tags holding
both "sad" and "party", and the mood is melancholic. -/
theorem inferVibe_mood_priority_witness :
    ("sad" ∈ (InferVibe.inferVibeCore ["sad", "party"]).tags ∧
     "party" ∈ (InferVibe.inferVibeCore ["sad", "party"]).tags) ∧
    (InferVibe.inferVibeCore ["sad", "party"]).mood = "melancholic" :=
  ⟨⟨by decide, by decide⟩,
    (inferVibe_mood_priority ["sad", "party"]).2.2.2.2 (by decide) (by decide)⟩

/-- C7: `inferVibe` returns `confidence = clamp(20, totalTagCount * 15, 90)`:
it always lies within [20, 90], never decreases as the total tag count
grows, and a zero-tag input yields mood "neutral" with confidence 20. -/
theorem inferVibe_confidence_clamp (allTags : List String) :
    (InferVibe.inferVibeCore allTags).confidence =
      min 90 (max 20 (allTags.length * 15)) ∧
    20 ≤ (InferVibe.inferVibeCore allTags).confidence ∧
    (InferVibe.inferVibeCore allTags).confidence ≤ 90 ∧
    (∀ moreTags : List String, allTags.length ≤ moreTags.length →
      (InferVibe.inferVibeCore allTags).confidence ≤
        (InferVibe.inferVibeCore moreTags).confidence) ∧
    (allTags = [] →
      (InferVibe.inferVibeCore allTags).mood = "neutral" ∧
      (InferVibe.inferVibeCore allTags).confidence = 20) := by
  have hconf : ∀ l : List String, (InferVibe.inferVibeCore l).confidence =
      min 90 (max 20 (l.length * 15)) := by
    intro l
    unfold InferVibe.inferVibeCore
    dsimp only
    rw [InferVibe.sumCounts_tagCounts]
  refine ⟨hconf allTags, ?_, ?_, ?_, ?_⟩
  · rw [hconf]
    omega
  · rw [hconf]
    omega
  · intro moreTags hle
    rw [hconf, hconf]
    have : allTags.length * 15 ≤ moreTags.length * 15 := by omega
    omega
  · intro hnil
    subst hnil
    exact ⟨rfl, rfl⟩

/-- Witness for C7: monotonicity applied to the concrete tag pools ["a"]
and ["a", "b", "c"], and the zero-tag case applied to the empty pool. -/
theorem inferVibe_confidence_clamp_witness :
    ((["a"] : List String).length ≤ (["a", "b", "c"] : List String).length ∧
      (InferVibe.inferVibeCore ["a"]).confidence ≤
        (InferVibe.inferVibeCore ["a", "b", "c"]).confidence) ∧
    ((InferVibe.inferVibeCore []).mood = "neutral" ∧
      (InferVibe.inferVibeCore []).confidence = 20) :=
  ⟨⟨by decide, (inferVibe_confidence_clamp ["a"]).2.2.2.1 ["a", "b", "c"] (by decide)⟩,
    (inferVibe_confidence_clamp []).2.2.2.2 rfl⟩

/-! ### CulturalEraDetector: `detectCulturalEra` (`src/backend/server.js`,
lines 462-509)

A seed only contributes `t.album?.release_date`, so a seed is modelled by
that optional string.  `parseInt(date.substring(0, 4))` is modelled by a
JS-style integer parse of the first four characters.  The float mean is
modelled exactly over `Rat`; `new Date().getFullYear()` is the explicit
parameter `currentYear`. -/

namespace Era

structure Seed where
  releaseDate : Option String
deriving DecidableEq, Repr

/-- Longest leading digit run of a character list, as a number; `none` when
there is none (`parseInt` yields `NaN`). -/
def digitsVal (cs : List Char) : Option ℕ :=
  match cs.takeWhile Char.isDigit with
  | [] => none
  | ds => some (ds.foldl (fun a c => a * 10 + (c.toNat - 48)) 0)

/-- JS `parseInt` (radix 10): skip leading whitespace, optional sign,
longest digit prefix; `NaN` (here `none`) when no digits follow. -/
def jsParseInt (s : String) : Option ℤ :=
  match s.data.dropWhile Char.isWhitespace with
  | '-' :: rest => (digitsVal rest).map (fun n => -(n : ℤ))
  | '+' :: rest => (digitsVal rest).map (fun n => (n : ℤ))
  | cs => (digitsVal cs).map (fun n => (n : ℤ))

/-- `parseInt(date.substring(0, 4))` on a seed, `null` on missing dates and
`NaN` parses. -/
def parsedYear (t : Seed) : Option ℤ :=
  match t.releaseDate with
  | none => none
  | some date => jsParseInt (String.mk (date.data.take 4))

/-- `.filter(y => y && y > 1950)` over the parsed years. -/
def extractYears (seedTracks : List Seed) : List ℤ :=
  (seedTracks.filterMap parsedYear).filter (fun y => y != 0 && decide (y > 1950))

def listMax : List ℤ → ℤ
  | [] => 0
  | y :: ys => ys.foldl max y

def listMin : List ℤ → ℤ
  | [] => 0
  | y :: ys => ys.foldl min y

/-- The 8 fixed era bands of the `avgYear` cascade, with their keyword
lists; the cascade tests them in this order. -/
def bandOf (avgYear : ℤ) : String × List String :=
  if 2020 ≤ avgYear then
    ("2020s", ["hyperpop", "bedroom pop", "alt", "tiktok era"])
  else if 2015 ≤ avgYear ∧ avgYear < 2020 then
    ("late-2010s", ["streaming era", "soundcloud", "trap", "indie"])
  else if 2010 ≤ avgYear ∧ avgYear < 2015 then
    ("early-2010s", ["edm boom", "dubstep", "indie folk", "tumblr era"])
  else if 2004 ≤ avgYear ∧ avgYear < 2010 then
    ("mid-2000s", ["pop-rap crossover", "urban radio", "ringtone era", "crunk", "timbaland"])
  else if 1998 ≤ avgYear ∧ avgYear < 2004 then
    ("late-90s-early-2000s", ["teen pop", "nu metal", "post-grunge", "trl era"])
  else if 1990 ≤ avgYear ∧ avgYear < 1998 then
    ("90s", ["grunge", "hip hop golden age", "britpop", "r&b"])
  else if 1980 ≤ avgYear ∧ avgYear < 1990 then
    ("80s", ["synth pop", "new wave", "mtv era", "hair metal"])
  else
    ("classic", ["classic rock", "disco", "funk", "soul"])

/-- The same 8 bands as membership predicates, for the non-overlap claim. -/
def eraBands : List (String × (ℤ → Bool)) :=
  [("2020s", fun y => decide (2020 ≤ y)),
   ("late-2010s", fun y => decide (2015 ≤ y) && decide (y < 2020)),
   ("early-2010s", fun y => decide (2010 ≤ y) && decide (y < 2015)),
   ("mid-2000s", fun y => decide (2004 ≤ y) && decide (y < 2010)),
   ("late-90s-early-2000s", fun y => decide (1998 ≤ y) && decide (y < 2004)),
   ("90s", fun y => decide (1990 ≤ y) && decide (y < 1998)),
   ("80s", fun y => decide (1980 ≤ y) && decide (y < 1990)),
   ("classic", fun y => decide (y < 1980))]

structure CulturalContext where
  culturalEra : String
  eraKeywords : List String
  avgYear : ℤ
  yearSpread : ℤ
  isFocusedEra : Bool
  searchContext : String
  timeRange : ℤ × ℤ
deriving DecidableEq, Repr

/-- The non-empty-years branch of `detectCulturalEra`: rounded mean year,
spread, band lookup and focus flag. -/
def ctxOfYears (years : List ℤ) (topSeedGenres : List String) : CulturalContext :=
  let avgYear := jsRound (((years.foldl (· + ·) 0 : ℤ) : ℚ) / (years.length : ℚ))
  let yearSpread := listMax years - listMin years
  { culturalEra := (bandOf avgYear).1,
    eraKeywords := (bandOf avgYear).2,
    avgYear := avgYear,
    yearSpread := yearSpread,
    isFocusedEra := decide (yearSpread ≤ 5),
    searchContext := String.intercalate "+" (topSeedGenres.take 3) ++ " " ++ (bandOf avgYear).1,
    timeRange := (listMin years, listMax years) }

def detectCulturalEra (seedTracks : List Seed) (topSeedGenres : List String)
    (currentYear : ℤ) : CulturalContext :=
  match extractYears seedTracks with
  | [] =>
    { culturalEra := "contemporary",
      eraKeywords := ["contemporary"],
      avgYear := currentYear,
      yearSpread := 0,
      isFocusedEra := true,
      searchContext := String.intercalate "+" (topSeedGenres.take 3) ++ " contemporary",
      timeRange := (currentYear, currentYear) }
  | _ :: _ => ctxOfYears (extractYears seedTracks) topSeedGenres

theorem detectCulturalEra_nil (seedTracks : List Seed) (topSeedGenres : List String)
    (currentYear : ℤ) (h : extractYears seedTracks = []) :
    detectCulturalEra seedTracks topSeedGenres currentYear =
      { culturalEra := "contemporary",
        eraKeywords := ["contemporary"],
        avgYear := currentYear,
        yearSpread := 0,
        isFocusedEra := true,
        searchContext := String.intercalate "+" (topSeedGenres.take 3) ++ " contemporary",
        timeRange := (currentYear, currentYear) } := by
  unfold detectCulturalEra
  rw [h]

theorem detectCulturalEra_cons (seedTracks : List Seed) (topSeedGenres : List String)
    (currentYear : ℤ) (y : ℤ) (ys : List ℤ) (h : extractYears seedTracks = y :: ys) :
    detectCulturalEra seedTracks topSeedGenres currentYear =
      ctxOfYears (y :: ys) topSeedGenres := by
  unfold detectCulturalEra
  rw [h]

end Era

set_option maxHeartbeats 1000000 in
theorem Era.eraBands_spec :
    ∀ b ∈ Era.eraBands, ∀ y : ℤ, b.2 y = true ↔ (Era.bandOf y).1 = b.1 := by
  intro b hb y
  fin_cases hb <;>
    simp only [Bool.and_eq_true, decide_eq_true_eq] <;>
    (unfold Era.bandOf; split_ifs <;> simp <;> omega)

/-- C5: `detectCulturalEra` keeps per-seed years (first 4 characters of the
release date, parsed) only when they exceed 1950; with no valid years it
returns the "contemporary" fallback with `isFocusedEra = true` and
`timeRange = [currentYear, currentYear]`; otherwise it maps the rounded
mean year into exactly one of the 8 fixed non-overlapping bands and sets
`isFocusedEra` iff the year spread is at most 5.  Seed years [2003, 2005]
give average 2004 and era "mid-2000s"; seed years [1999, 2001] give
average 2000 and era "late-90s-early-2000s". -/
theorem detectCulturalEra_spec (seeds : List Era.Seed) (genres : List String)
    (currentYear : ℤ) :
    (Era.extractYears seeds = [] →
      (Era.detectCulturalEra seeds genres currentYear).culturalEra = "contemporary" ∧
      (Era.detectCulturalEra seeds genres currentYear).isFocusedEra = true ∧
      (Era.detectCulturalEra seeds genres currentYear).timeRange = (currentYear, currentYear) ∧
      (Era.detectCulturalEra seeds genres currentYear).avgYear = currentYear) ∧
    (Era.extractYears seeds ≠ [] →
      (Era.detectCulturalEra seeds genres currentYear).culturalEra =
        (Era.bandOf (Era.detectCulturalEra seeds genres currentYear).avgYear).1 ∧
      ((Era.detectCulturalEra seeds genres currentYear).isFocusedEra = true ↔
        (Era.detectCulturalEra seeds genres currentYear).yearSpread ≤ 5)) ∧
    (∀ y : ℤ, y ∈ Era.extractYears seeds ↔
      (y ∈ seeds.filterMap Era.parsedYear ∧ 1950 < y)) ∧
    (∀ b ∈ Era.eraBands, ∀ y : ℤ, b.2 y = true ↔ (Era.bandOf y).1 = b.1) ∧
    ((Era.detectCulturalEra
        [Era.Seed.mk (some "2003-06-01"), Era.Seed.mk (some "2005-06-01")] [] 2026).avgYear = 2004 ∧
     (Era.detectCulturalEra
        [Era.Seed.mk (some "2003-06-01"), Era.Seed.mk (some "2005-06-01")] [] 2026).culturalEra = "mid-2000s") ∧
    ((Era.detectCulturalEra
        [Era.Seed.mk (some "1999-06-01"), Era.Seed.mk (some "2001-06-01")] [] 2026).avgYear = 2000 ∧
     (Era.detectCulturalEra
        [Era.Seed.mk (some "1999-06-01"), Era.Seed.mk (some "2001-06-01")] [] 2026).culturalEra = "late-90s-early-2000s") := by
  have havg03 : jsRound ((((List.foldl (· + ·) 0 [(2003 : ℤ), 2005] : ℤ)) : ℚ) /
      (([(2003 : ℤ), 2005].length : ℕ) : ℚ)) = 2004 := by
    simp only [List.foldl_cons, List.foldl_nil, List.length_cons, List.length_nil]
    norm_num [jsRound, Int.floor_eq_iff]
  have havg99 : jsRound ((((List.foldl (· + ·) 0 [(1999 : ℤ), 2001] : ℤ)) : ℚ) /
      (([(1999 : ℤ), 2001].length : ℕ) : ℚ)) = 2000 := by
    simp only [List.foldl_cons, List.foldl_nil, List.length_cons, List.length_nil]
    norm_num [jsRound, Int.floor_eq_iff]
  refine ⟨?_, ?_, ?_, ?_, ?_, ?_⟩
  · intro h
    rw [Era.detectCulturalEra_nil seeds genres currentYear h]
    exact ⟨rfl, rfl, rfl, rfl⟩
  · intro h
    rcases hys : Era.extractYears seeds with _ | ⟨y, ys⟩
    · exact absurd hys h
    · rw [Era.detectCulturalEra_cons seeds genres currentYear y ys hys]
      unfold Era.ctxOfYears
      dsimp only
      exact ⟨rfl, by simp⟩
  · intro y
    unfold Era.extractYears
    rw [List.mem_filter]
    simp only [Bool.and_eq_true, bne_iff_ne, ne_eq, decide_eq_true_eq]
    constructor
    · rintro ⟨hm, _, hgt⟩
      exact ⟨hm, hgt⟩
    · rintro ⟨hm, hgt⟩
      exact ⟨hm, by omega, hgt⟩
  · exact Era.eraBands_spec
  · have hys : Era.extractYears
        [Era.Seed.mk (some "2003-06-01"), Era.Seed.mk (some "2005-06-01")] = [2003, 2005] := by
      decide
    rw [Era.detectCulturalEra_cons _ _ _ 2003 [2005] hys]
    unfold Era.ctxOfYears
    dsimp only
    rw [havg03]
    exact ⟨rfl, by decide⟩
  · have hys : Era.extractYears
        [Era.Seed.mk (some "1999-06-01"), Era.Seed.mk (some "2001-06-01")] = [1999, 2001] := by
      decide
    rw [Era.detectCulturalEra_cons _ _ _ 1999 [2001] hys]
    unfold Era.ctxOfYears
    dsimp only
    rw [havg99]
    exact ⟨rfl, by decide⟩

/-- Witness for C5: the fallback branch applied to a seed with no release
date, and the non-empty branch applied to the [2003, 2005] seeds. -/
theorem detectCulturalEra_spec_witness :
    (Era.extractYears [Era.Seed.mk none] = [] ∧
      (Era.detectCulturalEra [Era.Seed.mk none] [] 2026).culturalEra = "contemporary" ∧
      (Era.detectCulturalEra [Era.Seed.mk none] [] 2026).isFocusedEra = true ∧
      (Era.detectCulturalEra [Era.Seed.mk none] [] 2026).timeRange = (2026, 2026) ∧
      (Era.detectCulturalEra [Era.Seed.mk none] [] 2026).avgYear = 2026) ∧
    (Era.extractYears [Era.Seed.mk (some "2003-06-01"), Era.Seed.mk (some "2005-06-01")] ≠ [] ∧
      (Era.detectCulturalEra
        [Era.Seed.mk (some "2003-06-01"), Era.Seed.mk (some "2005-06-01")] [] 2026).culturalEra =
      (Era.bandOf (Era.detectCulturalEra
        [Era.Seed.mk (some "2003-06-01"), Era.Seed.mk (some "2005-06-01")] [] 2026).avgYear).1) :=
  ⟨⟨by decide, (detectCulturalEra_spec [Era.Seed.mk none] [] 2026).1 (by decide)⟩,
   ⟨by decide, ((detectCulturalEra_spec
      [Era.Seed.mk (some "2003-06-01"), Era.Seed.mk (some "2005-06-01")] [] 2026).2.1
      (by decide)).1⟩⟩

/-! ### ScoringEngine stage 3: the contextual multiplier and score filter
(`src/backend/server.js`, lines 1289-1313, with `decadeFromReleaseDate`
from lines 724-730)

A candidate enters this stage with its artist ids, album release date,
proximity circle (`track._circle`) and current integer similarity
(`track.similarity || 0`).  The artist-to-genres map resolved earlier in
the route is an explicit input. -/

namespace Stage3

structure Candidate where
  artistIds : List String
  releaseDate : Option String
  circle : ℤ
  similarity : ℤ
deriving DecidableEq, Repr

/-- `decadeFromReleaseDate(dateStr)`; a missing or falsy date string and an
unparsable or negative year give "Unknown". -/
def decadeFromReleaseDate (dateStr : Option String) : String :=
  match dateStr with
  | none => "Unknown"
  | some s =>
    match Era.jsParseInt (String.mk (s.data.take 4)) with
    | none => "Unknown"
    | some y => if y < 0 then "Unknown" else toString (y / 10 * 10) ++ "s"

/-- The candidate genre Set: union of `artistGenresMap[id] || []` over the
candidate artists in insertion order, `{"unknown"}` when empty. -/
def candGenres (artistGenresMap : List (String × List String))
    (artistIds : List String) : List String :=
  let gs := artistIds.foldl
    (fun acc id =>
      ((ApiCache.mapGet artistGenresMap id).getD []).foldl
        (fun acc2 g => if acc2.contains g then acc2 else acc2 ++ [g]) acc)
    []
  if gs.isEmpty then ["unknown"] else gs

def genreMatches (artistGenresMap : List (String × List String))
    (topSeedGenres : List String) (artistIds : List String) : ℕ :=
  ((candGenres artistGenresMap artistIds).filter
    (fun g => topSeedGenres.contains g)).length

/-- `genreMatches > 0 ? Math.min(1 + 0.06 * genreMatches, 1.18) : 0.70`. -/
def genreMultiplier (nMatches : ℕ) : ℚ :=
  if nMatches > 0 then min (1 + (6 : ℚ)/100 * (nMatches : ℚ)) (118/100) else 70/100

/-- Unknown decade 0.97; matching decade 1.15 when the vibe era string
contains it, else 1.08; non-matching decade 0.92. -/
def decadeMultiplier (topSeedDecades : List String) (vibeEra : String)
    (candDec : String) : ℚ :=
  if candDec = "Unknown" then 97/100
  else if topSeedDecades.contains candDec then
    (if ApiCache.includesSub vibeEra candDec then 115/100 else 108/100)
  else 92/100

def proximityMultiplier (circle : ℤ) : ℚ :=
  if circle = 1 then 110/100
  else if circle = 2 then 106/100
  else if circle = 3 then 103/100
  else 1

/-- One candidate through stage 3: multiply the three factors into the
similarity, round, cap at 100. -/
def combinedMultiplier (artistGenresMap : List (String × List String))
    (topSeedGenres topSeedDecades : List String) (vibeEra : String)
    (t : Candidate) : ℚ :=
  genreMultiplier (genreMatches artistGenresMap topSeedGenres t.artistIds) *
    decadeMultiplier topSeedDecades vibeEra (decadeFromReleaseDate t.releaseDate) *
    proximityMultiplier t.circle

def adjustTrack (artistGenresMap : List (String × List String))
    (topSeedGenres topSeedDecades : List String) (vibeEra : String)
    (t : Candidate) : Candidate :=
  { t with
    similarity := min 100 (jsRound ((t.similarity : ℚ) *
      combinedMultiplier artistGenresMap topSeedGenres topSeedDecades vibeEra t)) }

/-- The stage-3 map followed by `.filter(track => track.similarity > 50)`. -/
def stage3Filter (artistGenresMap : List (String × List String))
    (topSeedGenres topSeedDecades : List String) (vibeEra : String)
    (tracks : List Candidate) : List Candidate :=
  (tracks.map (adjustTrack artistGenresMap topSeedGenres topSeedDecades vibeEra)).filter
    (fun t => decide (t.similarity > 50))

theorem genreMultiplier_range (nMatches : ℕ) :
    70/100 ≤ genreMultiplier nMatches ∧ genreMultiplier nMatches ≤ 118/100 := by
  unfold genreMultiplier
  split
  · constructor
    · apply le_min
      · have : (0 : ℚ) ≤ (6 : ℚ)/100 * (nMatches : ℚ) := by positivity
        linarith
      · norm_num
    · exact min_le_right _ _
  · norm_num

theorem decadeMultiplier_range (topSeedDecades : List String) (vibeEra : String)
    (candDec : String) :
    92/100 ≤ decadeMultiplier topSeedDecades vibeEra candDec ∧
      decadeMultiplier topSeedDecades vibeEra candDec ≤ 115/100 := by
  unfold decadeMultiplier
  split_ifs <;> norm_num

theorem proximityMultiplier_range (circle : ℤ) :
    1 ≤ proximityMultiplier circle ∧ proximityMultiplier circle ≤ 110/100 := by
  unfold proximityMultiplier
  split_ifs <;> norm_num

end Stage3

/-- C8 counterexample: a candidate whose adjusted score is exactly 50
(similarity 74, no genre overlap 0.70, unknown decade 0.97, circle 4
factor 1.00: round(74 × 0.679) = 50) is dropped by the stage-3 filter,
although the claim says a score of exactly 50 survives.  The code keeps
only scores strictly above 50. -/
theorem stage3_exact50_dropped_counterexample :
    (Stage3.adjustTrack [] ["rock"] ["1990s"] "2000s"
      { artistIds := [], releaseDate := none, circle := 4, similarity := 74 }).similarity = 50 ∧
    Stage3.stage3Filter [] ["rock"] ["1990s"] "2000s"
      [{ artistIds := [], releaseDate := none, circle := 4, similarity := 74 }] = [] := by
  have hsim : (Stage3.adjustTrack [] ["rock"] ["1990s"] "2000s"
      { artistIds := [], releaseDate := none, circle := 4, similarity := 74 }).similarity = 50 := by
    unfold Stage3.adjustTrack Stage3.combinedMultiplier
    dsimp only
    have h1 : Stage3.genreMatches [] ["rock"] [] = 0 := by decide
    have h2 : Stage3.decadeFromReleaseDate none = "Unknown" := rfl
    rw [h1, h2]
    unfold Stage3.genreMultiplier Stage3.decadeMultiplier Stage3.proximityMultiplier
    norm_num [jsRound, Int.floor_eq_iff]
  refine ⟨hsim, ?_⟩
  unfold Stage3.stage3Filter
  rw [List.map_cons, List.map_nil, List.filter_cons]
  rw [show (decide ((Stage3.adjustTrack [] ["rock"] ["1990s"] "2000s"
      { artistIds := [], releaseDate := none, circle := 4, similarity := 74 }).similarity > 50)) = false
    from by rw [hsim]; decide]
  simp

/-- C8 (amended): each candidate's similarity is multiplied by the product
of a genre-overlap factor in [0.70, 1.18], a decade factor in [0.92, 1.15]
and a circle factor in [1.00, 1.10], rounded and capped at 100; afterwards
exactly the candidates whose adjusted score is strictly above 50 survive —
a score of exactly 50 is dropped along with everything below it. -/
theorem stage3_context_multiplier_and_filter
    (artistGenresMap : List (String × List String))
    (topSeedGenres topSeedDecades : List String) (vibeEra : String)
    (tracks : List Stage3.Candidate) (t : Stage3.Candidate) :
    (70/100 ≤ Stage3.genreMultiplier
        (Stage3.genreMatches artistGenresMap topSeedGenres t.artistIds) ∧
      Stage3.genreMultiplier
        (Stage3.genreMatches artistGenresMap topSeedGenres t.artistIds) ≤ 118/100) ∧
    (92/100 ≤ Stage3.decadeMultiplier topSeedDecades vibeEra
        (Stage3.decadeFromReleaseDate t.releaseDate) ∧
      Stage3.decadeMultiplier topSeedDecades vibeEra
        (Stage3.decadeFromReleaseDate t.releaseDate) ≤ 115/100) ∧
    (1 ≤ Stage3.proximityMultiplier t.circle ∧
      Stage3.proximityMultiplier t.circle ≤ 110/100) ∧
    (Stage3.adjustTrack artistGenresMap topSeedGenres topSeedDecades vibeEra t).similarity =
      min 100 (jsRound ((t.similarity : ℚ) *
        (Stage3.genreMultiplier
            (Stage3.genreMatches artistGenresMap topSeedGenres t.artistIds) *
          Stage3.decadeMultiplier topSeedDecades vibeEra
            (Stage3.decadeFromReleaseDate t.releaseDate) *
          Stage3.proximityMultiplier t.circle))) ∧
    (Stage3.adjustTrack artistGenresMap topSeedGenres topSeedDecades vibeEra t).similarity ≤ 100 ∧
    (∀ u ∈ tracks.map (Stage3.adjustTrack artistGenresMap topSeedGenres topSeedDecades vibeEra),
      (u ∈ Stage3.stage3Filter artistGenresMap topSeedGenres topSeedDecades vibeEra tracks ↔
        50 < u.similarity)) := by
  refine ⟨Stage3.genreMultiplier_range _,
    Stage3.decadeMultiplier_range _ _ _,
    Stage3.proximityMultiplier_range _, rfl, ?_, ?_⟩
  · unfold Stage3.adjustTrack
    dsimp only
    exact min_le_left _ _
  · intro u hu
    unfold Stage3.stage3Filter
    rw [List.mem_filter]
    simp [hu]

/-- Witness for C8 (amended): a concrete candidate (genre overlap, 1990s
decade in the seed decades, circle 1, similarity 74) adjusted to 93, with
the survival iff discharged on its membership in the mapped list. -/
theorem stage3_context_multiplier_and_filter_witness :
    (Stage3.adjustTrack [("a1", ["rock"])] ["rock"] ["1990s"] "2000s"
        { artistIds := ["a1"], releaseDate := some "1995-01-01", circle := 1, similarity := 74 }).similarity = 93 ∧
    ((Stage3.adjustTrack [("a1", ["rock"])] ["rock"] ["1990s"] "2000s"
        { artistIds := ["a1"], releaseDate := some "1995-01-01", circle := 1, similarity := 74 }) ∈
      [({ artistIds := ["a1"], releaseDate := some "1995-01-01", circle := 1,
          similarity := 74 } : Stage3.Candidate)].map
        (Stage3.adjustTrack [("a1", ["rock"])] ["rock"] ["1990s"] "2000s") ∧
    ((Stage3.adjustTrack [("a1", ["rock"])] ["rock"] ["1990s"] "2000s"
        { artistIds := ["a1"], releaseDate := some "1995-01-01", circle := 1, similarity := 74 }) ∈
      Stage3.stage3Filter [("a1", ["rock"])] ["rock"] ["1990s"] "2000s"
        [{ artistIds := ["a1"], releaseDate := some "1995-01-01", circle := 1, similarity := 74 }] ↔
      50 < (Stage3.adjustTrack [("a1", ["rock"])] ["rock"] ["1990s"] "2000s"
        { artistIds := ["a1"], releaseDate := some "1995-01-01", circle := 1, similarity := 74 }).similarity)) := by
  constructor
  · unfold Stage3.adjustTrack Stage3.combinedMultiplier
    dsimp only
    have h1 : Stage3.genreMatches [("a1", ["rock"])] ["rock"] ["a1"] = 1 := by decide
    have h2 : Stage3.decadeFromReleaseDate (some "1995-01-01") = "1990s" := by decide
    have h3 : Stage3.decadeMultiplier ["1990s"] "2000s" "1990s" = 108/100 := by
      unfold Stage3.decadeMultiplier
      rw [if_neg (by decide), if_pos (by decide), if_neg (by decide)]
    have h4 : Stage3.genreMultiplier 1 = 106/100 := by
      unfold Stage3.genreMultiplier
      rw [if_pos (by decide), min_eq_left (by norm_num)]
      norm_num
    have h5 : Stage3.proximityMultiplier 1 = 110/100 := by
      unfold Stage3.proximityMultiplier
      rw [if_pos rfl]
    rw [h1, h2, h3, h4, h5]
    norm_num [jsRound, Int.floor_eq_iff]
  · exact ⟨List.mem_singleton.mpr rfl,
      (stage3_context_multiplier_and_filter [("a1", ["rock"])] ["rock"] ["1990s"] "2000s"
        [{ artistIds := ["a1"], releaseDate := some "1995-01-01", circle := 1, similarity := 74 }]
        { artistIds := ["a1"], releaseDate := some "1995-01-01", circle := 1, similarity := 74 }).2.2.2.2.2
        _ (List.mem_singleton.mpr rfl)⟩

/-! ### SectionAssembler and final `/analyze` playlist assembly
(`src/backend/server.js`: URI dedup lines 1243-1248, global sort line 1328,
`assemblePlaylistBySections` lines 417-460, final assembly lines 1341-1371)

A candidate here carries its URI, integer similarity, final score
(`finalScore`, a float assigned from similarity, proximity weight and
random jitter before assembly — its value is taken as an input since the
claim holds for every value) and assigned subgroup id.  The stage-3
adjustment, final-score assignment and subgroup annotation are abstracted
as a URI-preserving transform `adjustF` plus the survival filter `keepP`. -/

namespace Assemble

structure Subgroup where
  id : String
  weight : ℚ
deriving DecidableEq, Repr

structure Cand where
  uri : String
  similarity : ℤ
  finalScore : ℚ
  subgroupId : Option String
deriving DecidableEq, Repr

structure OutTrack where
  uri : String
  similarity : ℤ
deriving DecidableEq, Repr

/-- `b.finalScore || b.similarity || 0` (JS falsy fallback: a zero
finalScore falls back to the similarity). -/
def scoreKey (c : Cand) : ℚ :=
  if c.finalScore ≠ 0 then c.finalScore
  else if (c.similarity : ℚ) ≠ 0 then (c.similarity : ℚ)
  else 0

/-- The URI dedup of lines 1243-1248: a Map keyed by URI keeps the first
occurrence, `Array.from(values)` preserves first-insertion order. -/
def dedupByUriAux : List Cand → List String → List Cand
  | [], _ => []
  | t :: rest, seen =>
    if seen.contains t.uri then dedupByUriAux rest seen
    else t :: dedupByUriAux rest (seen ++ [t.uri])

def dedupByUri (tracks : List Cand) : List Cand := dedupByUriAux tracks []

/-- `const id = c._subgroupId || null; if (id && byGroup.has(id)) ...`:
an empty-string subgroup id is falsy and never pools. -/
def inPool (gid : String) (c : Cand) : Bool :=
  match c.subgroupId with
  | none => false
  | some s => (!(s == "")) && (s == gid)

/-- The per-group pool, sorted descending by `finalScore || similarity || 0`. -/
def poolFor (candidates : List Cand) (gid : String) : List Cand :=
  jsSortBy (fun a b => decide (scoreKey b ≤ scoreKey a)) (candidates.filter (inPool gid))

structure Quota where
  id : String
  n : ℕ
deriving DecidableEq, Repr

/-- `Math.max(1, Math.round(targetSize * (g.weight || 0) / totalW))`;
the outcome is at least 1, so `toNat` is exact. -/
def initialQuota (targetSize : ℕ) (totalW : ℚ) (g : Subgroup) : Quota :=
  { id := g.id, n := (max 1 (jsRound ((targetSize : ℚ) * g.weight / totalW))).toNat }

/-- `vibeSubgroups.reduce((s, g) => s + (g.weight || 0), 0) || 1`. -/
def totalWeight (groups : List Subgroup) : ℚ :=
  if groups.foldl (fun s g => s + g.weight) 0 = 0 then 1
  else groups.foldl (fun s g => s + g.weight) 0

def sumQuotas (quotas : List Quota) : ℕ := quotas.foldl (fun s q => s + q.n) 0

/-- `while (allocated > targetSize) { sort desc by n; if head.n > 1 then
decrement else break }`; each iteration decrements `allocated`, so
`allocated` itself is sufficient fuel. -/
def shrinkQuotas (fuel targetSize : ℕ) (quotas : List Quota) (allocated : ℕ) :
    List Quota × ℕ :=
  match fuel with
  | 0 => (quotas, allocated)
  | fuel + 1 =>
    if allocated > targetSize then
      match jsSortBy (fun a b : Quota => decide (b.n ≤ a.n)) quotas with
      | [] => (quotas, allocated)
      | q :: rest =>
        if q.n > 1 then
          shrinkQuotas fuel targetSize ({ id := q.id, n := q.n - 1 } :: rest) (allocated - 1)
        else (q :: rest, allocated)
    else (quotas, allocated)

/-- `while (allocated < targetSize) { sort desc by (poolLen - n); head.n++ }`;
each iteration increments `allocated`, so `targetSize` is sufficient fuel
(the loop is only entered with non-empty quotas). -/
def growQuotas (fuel targetSize : ℕ) (poolLen : String → ℕ) (quotas : List Quota)
    (allocated : ℕ) : List Quota :=
  match fuel with
  | 0 => quotas
  | fuel + 1 =>
    if allocated < targetSize then
      match jsSortBy (fun a b : Quota =>
          decide ((poolLen b.id : ℤ) - (b.n : ℤ) ≤ (poolLen a.id : ℤ) - (a.n : ℤ))) quotas with
      | [] => quotas
      | q :: rest =>
        growQuotas fuel targetSize poolLen ({ id := q.id, n := q.n + 1 } :: rest) (allocated + 1)
    else quotas

/-- `quotas.find(x => x.id === g.id)?.n || 0`. -/
def quotaFor (quotas : List Quota) (gid : String) : ℕ :=
  match quotas.find? (fun x => x.id == gid) with
  | none => 0
  | some x => x.n

/-- The per-group section loop: break once the target size is reached,
skip picked URIs, and break once the section holds its quota. -/
def sectionFill (targetSize : ℕ) (gid : String) (q : ℕ) :
    List Cand → List Cand → List String → List Cand × List String
  | [], result, picked => (result, picked)
  | t :: pool, result, picked =>
    if targetSize ≤ result.length then (result, picked)
    else if picked.contains t.uri then sectionFill targetSize gid q pool result picked
    else
      if q ≤ ((result ++ [t]).filter (fun x => x.subgroupId == some gid)).length then
        (result ++ [t], picked ++ [t.uri])
      else sectionFill targetSize gid q pool (result ++ [t]) (picked ++ [t.uri])

/-- Sections in descending subgroup-weight order. -/
def runSections (targetSize : ℕ) (candidates : List Cand) (quotas : List Quota)
    (ordered : List Subgroup) : List Cand × List String :=
  ordered.foldl
    (fun acc g =>
      sectionFill targetSize g.id (quotaFor quotas g.id) (poolFor candidates g.id)
        acc.1 acc.2)
    ([], [])

/-- The remainder handling after the section loop: when short of the
target, append the globally best remaining unpicked candidates, then
`slice(0, targetSize)`. -/
def backfill (candidates : List Cand) (targetSize : ℕ) (res : List Cand)
    (picked : List String) : List Cand :=
  (if res.length < targetSize then
    res ++ (jsSortBy (fun a b => decide (scoreKey b ≤ scoreKey a))
      (candidates.filter (fun t => !(picked.contains t.uri)))).take
        (targetSize - res.length)
  else res).take targetSize

def assemblePlaylistBySections (vibeSubgroups : List Subgroup) (candidates : List Cand)
    (targetSize : ℕ) : List Cand :=
  match vibeSubgroups with
  | [] => candidates.take targetSize
  | _ :: _ =>
    let quotas0 := vibeSubgroups.map (initialQuota targetSize (totalWeight vibeSubgroups))
    let shrunk := shrinkQuotas (sumQuotas quotas0) targetSize quotas0 (sumQuotas quotas0)
    let quotas2 := growQuotas targetSize targetSize
      (fun gid => (poolFor candidates gid).length) shrunk.1 shrunk.2
    let ordered := jsSortBy (fun a b : Subgroup => decide (b.weight ≤ a.weight)) vibeSubgroups
    let filled := runSections targetSize candidates quotas2 ordered
    backfill candidates targetSize filled.1 filled.2

/-- `Math.min(60, 40 + seedTracks.length) - seedTracks.length` (line 1341);
natural subtraction agrees with JS for any realistic seed count. -/
def targetSizeOf (numSeeds : ℕ) : ℕ := min 60 (40 + numSeeds) - numSeeds

/-- Lines 1341-1371: the final playlist is the seed tracks (similarity
forced to 100, original order) followed by the assembled selection, each
mapped to its output record. -/
def finalPlaylist (seedUris : List String) (vibeSubgroups : List Subgroup)
    (candidates : List Cand) : List OutTrack :=
  seedUris.map (fun u => { uri := u, similarity := 100 }) ++
    (assemblePlaylistBySections vibeSubgroups candidates (targetSizeOf seedUris.length)).map
      (fun c => { uri := c.uri, similarity := c.similarity })

/-- The post-mining tail of `/analyze`: URI dedup with first-wins, the
`MAX_CANDIDATES` cap of 80, the URI-preserving per-candidate adjustment
and survival filter (stage 3 scoring, final-score jitter and subgroup
annotation), the global `finalScore` sort of line 1328, and the final
assembly. -/
def analyzeAssembly (seedUris : List String) (raw : List Cand)
    (adjustF : Cand → Cand) (keepP : Cand → Bool)
    (vibeSubgroups : List Subgroup) : List OutTrack :=
  let candidates := jsSortBy (fun a b => decide (b.finalScore ≤ a.finalScore))
    ((((dedupByUri raw).take 80).map adjustF).filter keepP)
  finalPlaylist seedUris vibeSubgroups candidates

end Assemble

namespace Assemble

theorem contains_iff {a : String} {l : List String} : l.contains a = true ↔ a ∈ l := by
  simp [List.contains]

theorem dedupByUriAux_spec (l : List Cand) :
    ∀ seen : List String,
      (∀ t ∈ dedupByUriAux l seen, t ∈ l) ∧
      ((dedupByUriAux l seen).map Cand.uri).Nodup ∧
      (∀ t ∈ dedupByUriAux l seen, t.uri ∉ seen) := by
  induction l with
  | nil => intro seen; exact ⟨by simp [dedupByUriAux], by simp [dedupByUriAux], by simp [dedupByUriAux]⟩
  | cons t rest ih =>
    intro seen
    unfold dedupByUriAux
    split
    · rename_i hseen
      obtain ⟨hmem, hnd, hnotin⟩ := ih seen
      exact ⟨fun u hu => List.mem_cons_of_mem t (hmem u hu), hnd, hnotin⟩
    · rename_i hseen
      obtain ⟨hmem, hnd, hnotin⟩ := ih (seen ++ [t.uri])
      refine ⟨?_, ?_, ?_⟩
      · intro u hu
        rcases List.mem_cons.mp hu with hu | hu
        · exact hu ▸ List.mem_cons_self t rest
        · exact List.mem_cons_of_mem t (hmem u hu)
      · rw [List.map_cons, List.nodup_cons]
        constructor
        · intro hc
          obtain ⟨u, hu, huuri⟩ := List.mem_map.mp hc
          have := hnotin u hu
          exact this (by simp [huuri])
        · exact hnd
      · intro u hu
        rcases List.mem_cons.mp hu with hu | hu
        · subst hu
          intro hc
          exact hseen (contains_iff.mpr hc)
        · intro hc
          exact hnotin u hu (List.mem_append_left _ hc)

theorem dedupByUri_spec (l : List Cand) :
    (∀ t ∈ dedupByUri l, t ∈ l) ∧ ((dedupByUri l).map Cand.uri).Nodup := by
  obtain ⟨h1, h2, _⟩ := dedupByUriAux_spec l []
  exact ⟨h1, h2⟩

theorem nodup_subset_length {α : Type} [DecidableEq α] {l1 l2 : List α}
    (h1 : l1.Nodup) (hsub : ∀ x ∈ l1, x ∈ l2) : l1.length ≤ l2.length := by
  calc l1.length = l1.toFinset.card := (List.toFinset_card_of_nodup h1).symm
    _ ≤ l2.toFinset.card := Finset.card_le_card (fun x hx =>
        List.mem_toFinset.mpr (hsub x (List.mem_toFinset.mp hx)))
    _ ≤ l2.length := l2.toFinset_card_le

theorem length_filter_add_length_filter_not {α : Type} (p : α → Bool) (l : List α) :
    (l.filter p).length + (l.filter (fun x => !(p x))).length = l.length := by
  induction l with
  | nil => rfl
  | cons x xs ih =>
    rw [List.filter_cons, List.filter_cons]
    rcases hx : p x with _ | _
    · simp only [hx, Bool.false_eq_true, if_false, Bool.not_false, if_true, List.length_cons]
      omega
    · simp only [hx, if_true, Bool.not_true, Bool.false_eq_true, if_false, List.length_cons]
      omega

theorem length_filter_mem {u picked : List String}
    (hu : u.Nodup) (hp : picked.Nodup) (hsub : ∀ x ∈ picked, x ∈ u) :
    (u.filter (fun x => picked.contains x)).length = picked.length := by
  induction u generalizing picked with
  | nil =>
    have : picked = [] := by
      cases picked with
      | nil => rfl
      | cons y ys => exact absurd (hsub y (by simp)) (by simp)
    subst this
    rfl
  | cons x xs ih =>
    have hxs : xs.Nodup := (List.nodup_cons.mp hu).2
    have hxnot : x ∉ xs := (List.nodup_cons.mp hu).1
    rw [List.filter_cons]
    by_cases hxp : x ∈ picked
    · have hcx : (picked.contains x) = true := contains_iff.mpr hxp
      rw [hcx, if_pos rfl]
      have herase : ∀ y ∈ picked.erase x, y ∈ xs := by
        intro y hy
        have hymem := List.mem_of_mem_erase hy
        have hyne : y ≠ x := by
          intro hc
          subst hc
          exact (List.Nodup.not_mem_erase hp) hy
        rcases List.mem_cons.mp (hsub y hymem) with hc | hc
        · exact absurd hc hyne
        · exact hc
      have hfilter_eq : xs.filter (fun y => picked.contains y) =
          xs.filter (fun y => (picked.erase x).contains y) := by
        apply List.filter_congr
        intro y hy
        have hyne : y ≠ x := fun hc => hxnot (hc ▸ hy)
        rcases hyp : (picked.contains y) with _ | _
        · symm
          rw [Bool.eq_false_iff]
          intro hc
          have := List.mem_of_mem_erase (contains_iff.mp hc)
          rw [← Bool.not_eq_true] at hyp
          exact hyp (contains_iff.mpr this)
        · symm
          rw [contains_iff]
          exact (List.mem_erase_of_ne hyne).mpr (contains_iff.mp hyp)
      rw [hfilter_eq, List.length_cons, ih hxs (hp.erase x) herase,
        List.length_erase_of_mem hxp]
      have : 1 ≤ picked.length := List.length_pos.mpr (List.ne_nil_of_mem hxp)
      omega
    · have hcx : (picked.contains x) = false := by
        rw [Bool.eq_false_iff]
        intro hc
        exact hxp (contains_iff.mp hc)
      rw [hcx]
      simp only [Bool.false_eq_true, if_false]
      apply ih hxs hp
      intro y hy
      rcases List.mem_cons.mp (hsub y hy) with hc | hc
      · exact absurd (hc ▸ hy) hxp
      · exact hc

theorem length_filter_comp_map {α β : Type} (f : α → β) (p : β → Bool) (l : List α) :
    (l.filter (fun x => p (f x))).length = ((l.map f).filter p).length := by
  induction l with
  | nil => rfl
  | cons x xs ih =>
    rw [List.map_cons, List.filter_cons, List.filter_cons]
    rcases hx : p (f x) with _ | _
    · simp only [hx, Bool.false_eq_true, if_false]
      exact ih
    · simp only [hx, if_true, List.length_cons]
      omega

end Assemble

namespace Assemble

theorem sectionFill_inv (targetSize : ℕ) (gid : String) (q : ℕ)
    (candidates : List Cand) (pool : List Cand) :
    ∀ (res : List Cand) (picked : List String),
      picked = res.map Cand.uri →
      (res.map Cand.uri).Nodup →
      res.length ≤ targetSize →
      (∀ t ∈ res, t ∈ candidates) →
      (∀ t ∈ pool, t ∈ candidates) →
      ((sectionFill targetSize gid q pool res picked).2 =
          (sectionFill targetSize gid q pool res picked).1.map Cand.uri ∧
        ((sectionFill targetSize gid q pool res picked).1.map Cand.uri).Nodup ∧
        (sectionFill targetSize gid q pool res picked).1.length ≤ targetSize ∧
        (∀ t ∈ (sectionFill targetSize gid q pool res picked).1, t ∈ candidates)) := by
  induction pool with
  | nil =>
    intro res picked hp hnd hlen hres _
    exact ⟨hp, hnd, hlen, hres⟩
  | cons t pool ih =>
    intro res picked hp hnd hlen hres hpool
    unfold sectionFill
    split
    · exact ⟨hp, hnd, hlen, hres⟩
    · split
      · exact ih res picked hp hnd hlen hres
          (fun u hu => hpool u (List.mem_cons_of_mem t hu))
      · rename_i hshort hcont
        have hlt : res.length < targetSize := by omega
        have hnotmem : t.uri ∉ res.map Cand.uri := by
          rw [← hp]
          intro hc
          exact hcont (contains_iff.mpr hc)
        have hp2 : picked ++ [t.uri] = (res ++ [t]).map Cand.uri := by
          rw [hp, List.map_append, List.map_cons, List.map_nil]
        have hnd2 : ((res ++ [t]).map Cand.uri).Nodup := by
          rw [List.map_append, List.map_cons, List.map_nil, List.nodup_append]
          exact ⟨hnd, List.nodup_singleton _,
            fun x hx => by
              simp only [List.mem_singleton]
              intro hc
              exact hnotmem (hc ▸ hx)⟩
        have hlen2 : (res ++ [t]).length ≤ targetSize := by
          rw [List.length_append, List.length_cons, List.length_nil]
          omega
        have hres2 : ∀ u ∈ res ++ [t], u ∈ candidates := by
          intro u hu
          rcases List.mem_append.mp hu with hu | hu
          · exact hres u hu
          · simp only [List.mem_singleton] at hu
            exact hu ▸ hpool t (List.mem_cons_self t pool)
        split
        · exact ⟨hp2, hnd2, hlen2, hres2⟩
        · exact ih (res ++ [t]) (picked ++ [t.uri]) hp2 hnd2 hlen2 hres2
            (fun u hu => hpool u (List.mem_cons_of_mem t hu))

theorem runSections_inv (targetSize : ℕ) (candidates : List Cand)
    (quotas : List Quota) (ordered : List Subgroup) :
    (runSections targetSize candidates quotas ordered).2 =
        (runSections targetSize candidates quotas ordered).1.map Cand.uri ∧
      ((runSections targetSize candidates quotas ordered).1.map Cand.uri).Nodup ∧
      (runSections targetSize candidates quotas ordered).1.length ≤ targetSize ∧
      (∀ t ∈ (runSections targetSize candidates quotas ordered).1, t ∈ candidates) := by
  unfold runSections
  have key : ∀ (gs : List Subgroup) (acc : List Cand × List String),
      acc.2 = acc.1.map Cand.uri →
      (acc.1.map Cand.uri).Nodup →
      acc.1.length ≤ targetSize →
      (∀ t ∈ acc.1, t ∈ candidates) →
      ((gs.foldl (fun acc g =>
          sectionFill targetSize g.id (quotaFor quotas g.id) (poolFor candidates g.id)
            acc.1 acc.2) acc).2 =
        (gs.foldl (fun acc g =>
          sectionFill targetSize g.id (quotaFor quotas g.id) (poolFor candidates g.id)
            acc.1 acc.2) acc).1.map Cand.uri ∧
      ((gs.foldl (fun acc g =>
          sectionFill targetSize g.id (quotaFor quotas g.id) (poolFor candidates g.id)
            acc.1 acc.2) acc).1.map Cand.uri).Nodup ∧
      (gs.foldl (fun acc g =>
          sectionFill targetSize g.id (quotaFor quotas g.id) (poolFor candidates g.id)
            acc.1 acc.2) acc).1.length ≤ targetSize ∧
      (∀ t ∈ (gs.foldl (fun acc g =>
          sectionFill targetSize g.id (quotaFor quotas g.id) (poolFor candidates g.id)
            acc.1 acc.2) acc).1, t ∈ candidates)) := by
    intro gs
    induction gs with
    | nil => intro acc h1 h2 h3 h4; exact ⟨h1, h2, h3, h4⟩
    | cons g rest ih =>
      intro acc h1 h2 h3 h4
      simp only [List.foldl_cons]
      have hpm : ∀ t ∈ poolFor candidates g.id, t ∈ candidates := by
        intro t ht
        unfold poolFor at ht
        exact List.mem_of_mem_filter ((mem_jsSortBy _ _ _).mp ht)
      obtain ⟨k1, k2, k3, k4⟩ :=
        sectionFill_inv targetSize g.id (quotaFor quotas g.id) candidates
          (poolFor candidates g.id) acc.1 acc.2 h1 h2 h3 h4 hpm
      exact ih _ k1 k2 k3 k4
  exact key ordered ([], []) rfl (by simp) (by simp) (by simp)

end Assemble

namespace Assemble

theorem backfill_spec (candidates : List Cand) (targetSize : ℕ) (res : List Cand)
    (hnd : (candidates.map Cand.uri).Nodup)
    (hrnd : (res.map Cand.uri).Nodup)
    (hrlen : res.length ≤ targetSize)
    (hrmem : ∀ t ∈ res, t ∈ candidates) :
    ((backfill candidates targetSize res (res.map Cand.uri)).map Cand.uri).Nodup ∧
    (backfill candidates targetSize res (res.map Cand.uri)).length =
      min targetSize candidates.length ∧
    (∀ t ∈ backfill candidates targetSize res (res.map Cand.uri), t ∈ candidates) := by
  have hsubmap : ∀ x ∈ res.map Cand.uri, x ∈ candidates.map Cand.uri := by
    intro x hx
    obtain ⟨t, ht, rfl⟩ := List.mem_map.mp hx
    exact List.mem_map_of_mem _ (hrmem t ht)
  have hreslen : res.length ≤ candidates.length := by
    have h := nodup_subset_length hrnd hsubmap
    simpa using h
  have hremlen :
      (jsSortBy (fun a b => decide (scoreKey b ≤ scoreKey a))
        (candidates.filter (fun t => !((res.map Cand.uri).contains t.uri)))).length =
      candidates.length - res.length := by
    rw [length_jsSortBy]
    have hsplit := length_filter_add_length_filter_not
      (fun t => (res.map Cand.uri).contains t.uri) candidates
    have hcount : (candidates.filter
        (fun t => (res.map Cand.uri).contains t.uri)).length = res.length := by
      rw [length_filter_comp_map Cand.uri
        (fun u => (res.map Cand.uri).contains u) candidates]
      rw [length_filter_mem hnd hrnd hsubmap]
      exact List.length_map _ _
    omega
  have hremsub : ∀ t ∈ jsSortBy (fun a b => decide (scoreKey b ≤ scoreKey a))
      (candidates.filter (fun t => !((res.map Cand.uri).contains t.uri))), t ∈ candidates := by
    intro t ht
    exact List.mem_of_mem_filter ((mem_jsSortBy _ _ _).mp ht)
  have hremnd : ((jsSortBy (fun a b => decide (scoreKey b ≤ scoreKey a))
      (candidates.filter (fun t => !((res.map Cand.uri).contains t.uri)))).map Cand.uri).Nodup := by
    have hperm := (perm_jsSortBy (fun a b => decide (scoreKey b ≤ scoreKey a))
      (candidates.filter (fun t => !((res.map Cand.uri).contains t.uri)))).map Cand.uri
    refine hperm.nodup_iff.mpr ?_
    exact List.Nodup.sublist
      (List.Sublist.map Cand.uri (List.filter_sublist _)) hnd
  have hremnot : ∀ t ∈ jsSortBy (fun a b => decide (scoreKey b ≤ scoreKey a))
      (candidates.filter (fun t => !((res.map Cand.uri).contains t.uri))),
      t.uri ∉ res.map Cand.uri := by
    intro t ht hc
    have hfil := List.of_mem_filter ((mem_jsSortBy _ _ _).mp ht)
    rw [contains_iff.mpr hc] at hfil
    simp at hfil
  unfold backfill
  split
  · rename_i hlt
    have hcat_nd : ((res ++ (jsSortBy (fun a b => decide (scoreKey b ≤ scoreKey a))
        (candidates.filter (fun t => !((res.map Cand.uri).contains t.uri)))).take
          (targetSize - res.length)).map Cand.uri).Nodup := by
      rw [List.map_append, List.nodup_append]
      refine ⟨hrnd, ?_, ?_⟩
      · exact List.Nodup.sublist (List.Sublist.map Cand.uri (List.take_sublist _ _)) hremnd
      · intro x hx
        intro hx2
        obtain ⟨t, ht, rfl⟩ := List.mem_map.mp hx2
        have ht2 := List.mem_of_mem_take ht
        exact hremnot t ht2 hx
    refine ⟨?_, ?_, ?_⟩
    · exact List.Nodup.sublist (List.Sublist.map Cand.uri (List.take_sublist _ _)) hcat_nd
    · rw [List.length_take, List.length_append, List.length_take, hremlen]
      omega
    · intro t ht
      have ht2 := List.mem_of_mem_take ht
      rcases List.mem_append.mp ht2 with h | h
      · exact hrmem t h
      · exact hremsub t (List.mem_of_mem_take h)
  · rename_i hge
    refine ⟨?_, ?_, ?_⟩
    · exact List.Nodup.sublist (List.Sublist.map Cand.uri (List.take_sublist _ _)) hrnd
    · rw [List.length_take]
      omega
    · intro t ht
      exact hrmem t (List.mem_of_mem_take ht)

theorem assemble_spec (groups : List Subgroup) (candidates : List Cand) (targetSize : ℕ)
    (hnd : (candidates.map Cand.uri).Nodup) :
    ((assemblePlaylistBySections groups candidates targetSize).map Cand.uri).Nodup ∧
    (assemblePlaylistBySections groups candidates targetSize).length =
      min targetSize candidates.length ∧
    (∀ t ∈ assemblePlaylistBySections groups candidates targetSize, t ∈ candidates) := by
  cases groups with
  | nil =>
    unfold assemblePlaylistBySections
    refine ⟨?_, ?_, ?_⟩
    · exact List.Nodup.sublist (List.Sublist.map Cand.uri (List.take_sublist _ _)) hnd
    · exact List.length_take _ _
    · intro t ht
      exact List.mem_of_mem_take ht
  | cons g0 grest =>
    unfold assemblePlaylistBySections
    dsimp only
    obtain ⟨h1, h2, h3, h4⟩ := runSections_inv targetSize candidates
      (growQuotas targetSize targetSize (fun gid => (poolFor candidates gid).length)
        (shrinkQuotas (sumQuotas ((g0 :: grest).map
          (initialQuota targetSize (totalWeight (g0 :: grest))))) targetSize
          ((g0 :: grest).map (initialQuota targetSize (totalWeight (g0 :: grest))))
          (sumQuotas ((g0 :: grest).map
            (initialQuota targetSize (totalWeight (g0 :: grest)))))).1
        (shrinkQuotas (sumQuotas ((g0 :: grest).map
          (initialQuota targetSize (totalWeight (g0 :: grest))))) targetSize
          ((g0 :: grest).map (initialQuota targetSize (totalWeight (g0 :: grest))))
          (sumQuotas ((g0 :: grest).map
            (initialQuota targetSize (totalWeight (g0 :: grest)))))).2)
      (jsSortBy (fun a b : Subgroup => decide (b.weight ≤ a.weight)) (g0 :: grest))
    rw [h1]
    exact backfill_spec candidates targetSize _ hnd h2 h3 h4

end Assemble

/-- C1: whenever the `/analyze` assembly runs, the returned track list is
all seed tracks first (similarity 100, original order) followed by the
assembled selection; no two entries share a URI and no selected candidate
carries a seed URI; and the total length equals the seed count plus the
minimum of the target size (a function of seed count) and the number of
candidates available after URI dedup, the candidate cap and filtering.
Hypotheses: seed URIs are distinct (distinct seed ids map to distinct
URIs), mined candidates never carry a seed URI (the `uriSeen` guard), and
the per-candidate adjustment stage preserves URIs (it only rescores and
annotates). -/
theorem analyze_tracks_shape (seedUris : List String) (raw : List Assemble.Cand)
    (adjustF : Assemble.Cand → Assemble.Cand) (keepP : Assemble.Cand → Bool)
    (groups : List Assemble.Subgroup)
    (hseed : seedUris.Nodup)
    (hdisj : ∀ c ∈ raw, c.uri ∉ seedUris)
    (hadj : ∀ c, (adjustF c).uri = c.uri) :
    ((Assemble.analyzeAssembly seedUris raw adjustF keepP groups).map Assemble.OutTrack.uri).Nodup ∧
    (Assemble.analyzeAssembly seedUris raw adjustF keepP groups).length =
      seedUris.length + min (Assemble.targetSizeOf seedUris.length)
        ((((Assemble.dedupByUri raw).take 80).map adjustF).filter keepP).length ∧
    (Assemble.analyzeAssembly seedUris raw adjustF keepP groups).take seedUris.length =
      seedUris.map (fun u => { uri := u, similarity := 100 }) ∧
    (∀ t ∈ (Assemble.analyzeAssembly seedUris raw adjustF keepP groups).drop seedUris.length,
      t.uri ∉ seedUris) := by
  have huri_comp : Assemble.Cand.uri ∘ adjustF = Assemble.Cand.uri := funext hadj
  obtain ⟨hddmem, hddnd⟩ := Assemble.dedupByUri_spec raw
  have hfilnd : (((((Assemble.dedupByUri raw).take 80).map adjustF).filter keepP).map
      Assemble.Cand.uri).Nodup := by
    have h1 : (((Assemble.dedupByUri raw).take 80).map Assemble.Cand.uri).Nodup :=
      List.Nodup.sublist (List.Sublist.map Assemble.Cand.uri (List.take_sublist _ _)) hddnd
    have h2 : ((((Assemble.dedupByUri raw).take 80).map adjustF).map
        Assemble.Cand.uri).Nodup := by
      rw [List.map_map, huri_comp]
      exact h1
    exact List.Nodup.sublist (List.Sublist.map Assemble.Cand.uri (List.filter_sublist _)) h2
  have hcsnd : ((jsSortBy (fun a b => decide (b.finalScore ≤ a.finalScore))
      ((((Assemble.dedupByUri raw).take 80).map adjustF).filter keepP)).map
      Assemble.Cand.uri).Nodup := by
    have hperm := (perm_jsSortBy (fun a b : Assemble.Cand =>
      decide (b.finalScore ≤ a.finalScore))
      ((((Assemble.dedupByUri raw).take 80).map adjustF).filter keepP)).map Assemble.Cand.uri
    exact hperm.nodup_iff.mpr hfilnd
  have hcsdisj : ∀ t ∈ jsSortBy (fun a b => decide (b.finalScore ≤ a.finalScore))
      ((((Assemble.dedupByUri raw).take 80).map adjustF).filter keepP),
      t.uri ∉ seedUris := by
    intro t ht
    have ht1 := List.mem_of_mem_filter ((mem_jsSortBy _ _ _).mp ht)
    obtain ⟨t0, ht0, rfl⟩ := List.mem_map.mp ht1
    rw [hadj t0]
    exact hdisj t0 (hddmem t0 (List.mem_of_mem_take ht0))
  have hcslen : (jsSortBy (fun a b => decide (b.finalScore ≤ a.finalScore))
      ((((Assemble.dedupByUri raw).take 80).map adjustF).filter keepP)).length =
      ((((Assemble.dedupByUri raw).take 80).map adjustF).filter keepP).length :=
    length_jsSortBy _ _
  obtain ⟨hselnd, hsellen, hselmem⟩ := Assemble.assemble_spec groups
    (jsSortBy (fun a b => decide (b.finalScore ≤ a.finalScore))
      ((((Assemble.dedupByUri raw).take 80).map adjustF).filter keepP))
    (Assemble.targetSizeOf seedUris.length) hcsnd
  unfold Assemble.analyzeAssembly Assemble.finalPlaylist
  dsimp only
  refine ⟨?_, ?_, ?_, ?_⟩
  · rw [List.map_append, List.map_map, List.map_map, List.nodup_append]
    have hcomp1 : (Assemble.OutTrack.uri ∘ fun u =>
        ({ uri := u, similarity := 100 } : Assemble.OutTrack)) = id := funext fun u => rfl
    refine ⟨by rw [hcomp1, List.map_id]; exact hseed, by simpa using hselnd, ?_⟩
    intro x hx
    simp only [List.mem_map, Function.comp] at hx ⊢
    obtain ⟨u, hu, rfl⟩ := hx
    intro ⟨t, ht, hturi⟩
    exact hcsdisj t (hselmem t ht) (hturi ▸ hu)
  · rw [List.length_append, List.length_map, List.length_map, hsellen, hcslen]
  · have hlen : seedUris.length =
        (seedUris.map (fun u => ({ uri := u, similarity := 100 } : Assemble.OutTrack))).length :=
      (List.length_map _ _).symm
    rw [hlen, List.take_left]
  · intro t ht
    have hlen : seedUris.length =
        (seedUris.map (fun u => ({ uri := u, similarity := 100 } : Assemble.OutTrack))).length :=
      (List.length_map _ _).symm
    rw [hlen, List.drop_left] at ht
    obtain ⟨c, hc, rfl⟩ := List.mem_map.mp ht
    rw [List.length_map] at hc
    exact hcsdisj c (hselmem c hc)

/-- Concrete seed-URI list for instantiating the assembly shape theorem. -/
def c1Seeds : List String := ["s1", "s2"]

/-- Concrete mined-candidate list for instantiating the assembly shape theorem. -/
def c1Raw : List Assemble.Cand :=
  [{ uri := "c1", similarity := 60, finalScore := 0, subgroupId := none }]

/-- C1 witness: the assembly shape theorem instantiated on a concrete
request with two distinct seeds and one mined candidate. -/
theorem analyze_tracks_shape_witness :
    c1Seeds.Nodup ∧ (∀ c ∈ c1Raw, c.uri ∉ c1Seeds) ∧
    (∀ c : Assemble.Cand, (id c).uri = c.uri) ∧
    (((Assemble.analyzeAssembly c1Seeds c1Raw id (fun _ => true) []).map
        Assemble.OutTrack.uri).Nodup ∧
      (Assemble.analyzeAssembly c1Seeds c1Raw id (fun _ => true) []).length =
        c1Seeds.length + min (Assemble.targetSizeOf c1Seeds.length)
          ((((Assemble.dedupByUri c1Raw).take 80).map id).filter (fun _ => true)).length ∧
      (Assemble.analyzeAssembly c1Seeds c1Raw id (fun _ => true) []).take c1Seeds.length =
        c1Seeds.map (fun u => { uri := u, similarity := 100 }) ∧
      (∀ t ∈ (Assemble.analyzeAssembly c1Seeds c1Raw id (fun _ => true) []).drop
          c1Seeds.length, t.uri ∉ c1Seeds)) :=
  ⟨by decide, by decide, fun c => rfl,
    analyze_tracks_shape c1Seeds c1Raw id (fun _ => true) [] (by decide) (by decide)
      (fun c => rfl)⟩


namespace Analyze

/-- Line 927: the validity test `id && id.trim()` of the seed-id filter.
An empty id is falsy outright; otherwise the id passes exactly when its
trim (leading and trailing whitespace removed) is a nonempty, hence
truthy, string. -/
def validId (s : String) : Bool :=
  if s = "" then false
  else !(((s.data.dropWhile Char.isWhitespace).reverse.dropWhile
    Char.isWhitespace).reverse.isEmpty)

/-- Line 927: `Array.from(new Set(list))` — a JS `Set` keeps the first
occurrence of each element, in insertion order. -/
def dedupFirstAux (seen : List String) : List String → List String
  | [] => []
  | x :: xs =>
    if seen.contains x then dedupFirstAux seen xs
    else x :: dedupFirstAux (x :: seen) xs

def dedupFirst (l : List String) : List String := dedupFirstAux [] l

/-- One mining phase of the route. `run` is its outcome: a candidate
list, or an upstream failure (a rejected fetch, a malformed response
body, a limiter queue-full rejection) carrying its message. `caught`
records whether the source wraps the phase body in a handler of its
own: the top-artists fetch (line 1041), the Spotify recommendations
call (line 1060) and the per-seed Last.fm tag mining (line 1186) each
have one, but the similar-artist phase of lines 1092-1108 awaits
`getLastfmSimilarArtists` (lines 686-697, itself handler-free) directly
under the route-level `try`, so it has none. -/
structure Strategy where
  caught : Bool
  run : Except String (List Assemble.Cand)

/-- What a handled phase contributes to the candidate pool: its list,
or nothing once its own `catch` has swallowed the failure. -/
def degrade (s : Strategy) : List Assemble.Cand :=
  match s.run with
  | .ok l => l
  | .error _ => []

/-- The first failure of a handler-free phase. Such a rejection escapes
to the route-level catch of line 1399, which answers with status 500
and the failure message, aborting the whole request. -/
def firstUncaught : List Strategy → Option String
  | [] => none
  | s :: rest =>
    match s.caught, s.run with
    | false, .error e => some e
    | _, _ => firstUncaught rest

/-- The terminal error responses of the route: the two input-validation
rejections of lines 924-930, the no-candidates error thrown at lines
1319-1321, and an uncaught upstream failure surfaced by the route-level
catch of line 1399. -/
inductive Err where
  | inputEmpty
  | inputAllInvalid
  | noCandidates
  | upstream (msg : String)
deriving DecidableEq

/-- Lines 924-926: `!trackIds || !trackIds.length`. -/
def noneOrEmpty : Option (List String) → Bool
  | none => true
  | some ids => ids.isEmpty

/-- Lines 927-930: a nonempty input list whose filtered dedup is empty. -/
def emptyAfterDedup : Option (List String) → Bool
  | none => false
  | some ids => !ids.isEmpty && (dedupFirst (ids.filter validId)).isEmpty

/-- The candidate list surviving mining: the concatenated degraded
phase outputs, the `uriSeen` seed guard, URI dedup with the
`MAX_CANDIDATES` slice, and the conditional contextual adjust-and-filter
of stage 3, applied only when seed genre or decade data exists. -/
def survivors (strategies : List Strategy)
    (seedUris : List String) (applyContext : Bool)
    (adjustF : Assemble.Cand → Assemble.Cand) (keepP : Assemble.Cand → Bool) :
    List Assemble.Cand :=
  let raw := ((strategies.map degrade).foldr (· ++ ·) []).filter
    (fun c => !(seedUris.contains c.uri))
  let capped := (Assemble.dedupByUri raw).take 80
  if applyContext then (capped.map adjustF).filter keepP else capped

/-- The `/analyze` route control-flow skeleton (lines 919-1408): input
validation, candidate mining in which only handler-wrapped phases
degrade while a handler-free failure propagates to the route-level
catch, the `candidateTracks.length === 0` check, and the final
assembly. Authentication (`getMe`) and seed fetching (`getTracks`) are
collaborators outside the modeled scope and are assumed successful; the
seed URIs are their result. -/
def analyzeRun (trackIds : Option (List String))
    (strategies : List Strategy)
    (seedUris : List String) (applyContext : Bool)
    (adjustF : Assemble.Cand → Assemble.Cand) (keepP : Assemble.Cand → Bool)
    (groups : List Assemble.Subgroup) : Except Err (List Assemble.OutTrack) :=
  if noneOrEmpty trackIds then .error .inputEmpty
  else if emptyAfterDedup trackIds then .error .inputAllInvalid
  else
    match firstUncaught strategies with
    | some e => .error (.upstream e)
    | none =>
      if (survivors strategies seedUris applyContext adjustF keepP).length = 0 then
        .error .noCandidates
      else
        .ok (Assemble.finalPlaylist seedUris groups
          (jsSortBy (fun a b => decide (b.finalScore ≤ a.finalScore))
            (survivors strategies seedUris applyContext adjustF keepP)))

/-- True exactly on the error responses, which carry no playlist. -/
def isErr : Except Err (List Assemble.OutTrack) → Bool
  | .error _ => true
  | .ok _ => false

end Analyze

/-- A phase list has an uncaught failure exactly when some handler-free
phase in it failed. -/
theorem Analyze.firstUncaught_isSome (strategies : List Analyze.Strategy) :
    (Analyze.firstUncaught strategies).isSome = true ↔
    ∃ s ∈ strategies, s.caught = false ∧ ∃ e, s.run = Except.error e := by
  induction strategies with
  | nil => simp [Analyze.firstUncaught]
  | cons s rest ih =>
    rcases s with ⟨c, r⟩
    cases c <;> rcases r with e | l <;> simp [Analyze.firstUncaught, ih]

/-- Concrete mined candidate for instantiating the failure taxonomy. -/
def c9Cand : Assemble.Cand :=
  { uri := "m1", similarity := 80, finalScore := 0, subgroupId := none }

/-- Concrete phase list whose only failure sits in a handler-wrapped
phase. -/
def c9Strategies : List Analyze.Strategy :=
  [{ caught := true, run := Except.error "rate limited" },
   { caught := true, run := Except.ok [c9Cand] }]

/-- The same phases with the handled failure already degraded to an
empty contribution. -/
def c9Strategies2 : List Analyze.Strategy :=
  [{ caught := true, run := Except.ok [] },
   { caught := true, run := Except.ok [c9Cand] }]

/-- Concrete phase list whose failure sits in the handler-free
similar-artist phase. -/
def c9StrategiesU : List Analyze.Strategy :=
  [{ caught := false, run := Except.error "lastfm fetch failed" },
   { caught := true, run := Except.ok [c9Cand] }]

/-- C9 counterexample: a request with a valid nonempty seed list and a
mined candidate that survives every filter still fails terminally,
because the similar-artist mining phase (lines 1092-1108) awaits
`getLastfmSimilarArtists` (lines 686-697) with no handler of its own:
its rejection — a failed fetch, a malformed response body, or the
limiter queue-full rejection — reaches the route-level catch and
aborts the request, so terminal failure is not restricted to invalid
input or candidate exhaustion, and per-strategy isolation fails for
this phase. -/
theorem analyze_uncaught_strategy_counterexample :
    Analyze.noneOrEmpty (some ["s1"]) = false ∧
    Analyze.emptyAfterDedup (some ["s1"]) = false ∧
    (Analyze.survivors c9StrategiesU ["su1"] false id (fun _ => true)).length = 1 ∧
    Analyze.analyzeRun (some ["s1"]) c9StrategiesU ["su1"] false id (fun _ => true) [] =
      Except.error (Analyze.Err.upstream "lastfm fetch failed") :=
  ⟨rfl, by decide, by decide, rfl⟩

/-- C9 (amended): the route fails terminally — an error response and no
playlist — exactly when the seed id list is missing or empty, or all
ids are invalid after filtering and dedup, or some handler-free mining
phase (the similar-artist phase) suffered an upstream failure, or no
candidate at all survives mining and filtering; the no-candidates error
is produced exactly when validation and the handler-free phases pass
but no candidate survives; an uncaught failure exists exactly when some
handler-free phase failed; and failures inside handler-wrapped phases
(top artists, Spotify recommendations, per-seed Last.fm mining) are
never terminal: any two phase lists with the same degraded outputs and
the same first uncaught failure produce the same response. -/
theorem analyze_terminal_failure (trackIds : Option (List String))
    (strategies strategies2 : List Analyze.Strategy)
    (seedUris : List String) (applyContext : Bool)
    (adjustF : Assemble.Cand → Assemble.Cand) (keepP : Assemble.Cand → Bool)
    (groups : List Assemble.Subgroup)
    (hdeg : strategies.map Analyze.degrade = strategies2.map Analyze.degrade)
    (hunc : Analyze.firstUncaught strategies = Analyze.firstUncaught strategies2) :
    (Analyze.isErr (Analyze.analyzeRun trackIds strategies seedUris applyContext
        adjustF keepP groups) = true ↔
      Analyze.noneOrEmpty trackIds = true ∨ Analyze.emptyAfterDedup trackIds = true ∨
      (Analyze.firstUncaught strategies).isSome = true ∨
      Analyze.survivors strategies seedUris applyContext adjustF keepP = []) ∧
    ((Analyze.firstUncaught strategies).isSome = true ↔
      ∃ s ∈ strategies, s.caught = false ∧ ∃ e, s.run = Except.error e) ∧
    (Analyze.analyzeRun trackIds strategies seedUris applyContext adjustF keepP groups =
        Except.error Analyze.Err.noCandidates ↔
      Analyze.noneOrEmpty trackIds = false ∧ Analyze.emptyAfterDedup trackIds = false ∧
      Analyze.firstUncaught strategies = none ∧
      Analyze.survivors strategies seedUris applyContext adjustF keepP = []) ∧
    Analyze.analyzeRun trackIds strategies seedUris applyContext adjustF keepP groups =
      Analyze.analyzeRun trackIds strategies2 seedUris applyContext adjustF keepP groups := by
  have hs : Analyze.survivors strategies seedUris applyContext adjustF keepP =
      Analyze.survivors strategies2 seedUris applyContext adjustF keepP := by
    unfold Analyze.survivors
    rw [hdeg]
  refine ⟨?_, Analyze.firstUncaught_isSome strategies, ?_, ?_⟩
  · unfold Analyze.analyzeRun
    split_ifs with h1 h2 h3
    · simp [Analyze.isErr, h1]
    · simp [Analyze.isErr, h1, h2]
    · cases hfc : Analyze.firstUncaught strategies with
      | some e => simp [Analyze.isErr, h1, h2]
      | none => simp [Analyze.isErr, h1, h2, List.length_eq_zero.mp h3]
    · have hne : Analyze.survivors strategies seedUris applyContext adjustF keepP ≠ [] :=
        fun hc => h3 (by rw [hc]; rfl)
      cases hfc : Analyze.firstUncaught strategies with
      | some e => simp [Analyze.isErr, h1, h2]
      | none => simp [Analyze.isErr, h1, h2, hne]
  · unfold Analyze.analyzeRun
    split_ifs with h1 h2 h3
    · simp [h1]
    · simp [h1, h2]
    · cases hfc : Analyze.firstUncaught strategies with
      | some e => simp [h1, h2]
      | none => simp [h1, h2, List.length_eq_zero.mp h3]
    · have hne : Analyze.survivors strategies seedUris applyContext adjustF keepP ≠ [] :=
        fun hc => h3 (by rw [hc]; rfl)
      cases hfc : Analyze.firstUncaught strategies with
      | some e => simp [h1, h2]
      | none => simp [h1, h2, hne]
  · unfold Analyze.analyzeRun
    rw [hs, hunc]

/-- C9 witness: the failure taxonomy instantiated on a concrete request
whose only failing phase is handler-wrapped (rate limited), compared
with the same phases after degradation. -/
theorem analyze_terminal_failure_witness :
    c9Strategies.map Analyze.degrade = c9Strategies2.map Analyze.degrade ∧
    Analyze.firstUncaught c9Strategies = Analyze.firstUncaught c9Strategies2 ∧
    ((Analyze.isErr (Analyze.analyzeRun (some ["s1"]) c9Strategies ["su1"] false id
        (fun _ => true) []) = true ↔
      Analyze.noneOrEmpty (some ["s1"]) = true ∨
      Analyze.emptyAfterDedup (some ["s1"]) = true ∨
      (Analyze.firstUncaught c9Strategies).isSome = true ∨
      Analyze.survivors c9Strategies ["su1"] false id (fun _ => true) = []) ∧
    ((Analyze.firstUncaught c9Strategies).isSome = true ↔
      ∃ s ∈ c9Strategies, s.caught = false ∧ ∃ e, s.run = Except.error e) ∧
    (Analyze.analyzeRun (some ["s1"]) c9Strategies ["su1"] false id (fun _ => true) [] =
        Except.error Analyze.Err.noCandidates ↔
      Analyze.noneOrEmpty (some ["s1"]) = false ∧
      Analyze.emptyAfterDedup (some ["s1"]) = false ∧
      Analyze.firstUncaught c9Strategies = none ∧
      Analyze.survivors c9Strategies ["su1"] false id (fun _ => true) = []) ∧
    Analyze.analyzeRun (some ["s1"]) c9Strategies ["su1"] false id (fun _ => true) [] =
      Analyze.analyzeRun (some ["s1"]) c9Strategies2 ["su1"] false id (fun _ => true) []) :=
  ⟨rfl, rfl, analyze_terminal_failure (some ["s1"]) c9Strategies c9Strategies2 ["su1"] false id
    (fun _ => true) [] rfl rfl⟩
